import Mathlib

/-!
# ThreadPool.hpp: a shallow embedding and its verified properties

The header defines `ThreadPool<policy_type>`: a vector of worker threads
(`mWorkers`), a task container (`mTasks`, a `std::queue` for `FIFO_POLICY`, a
`std::stack` for `LIFO_POLICY`), a mutex (`queue_mutex`), a condition variable
(`condition`) and the flag `isActive`.

The embedding is an interleaving semantics.  A `Pool` value is the shared state
together with the program counter of every thread that is inside a member
function; `step` executes one atomic action of one thread.  An action reads or
writes the flag at most once and touches the container only while its thread
holds `queue_mutex`; the thread-local work between two such accesses belongs to
the action before it.  So every interleaving the source admits is a list of
actions.  A task is a value: its call stores the outcome of the wrapped callable
and does not call into the pool.  Three history fields (`accepted`, `started`,
`finished`) record what happened; no action reads them.
-/

set_option linter.unusedTactic false
set_option linter.unnecessarySeqFocus false
set_option linter.unusedVariables false

namespace ThreadPool

/-! ## Data model -/

/-- What the bound call `f(args...)` of one submission does when it is invoked:
it returns a value or it throws. -/
inductive Outcome where
  | value (v : Int)
  | failure (what : String)
  deriving DecidableEq, Repr

/-- The element pushed at line 93, `[task](){ (*task)(); }`.  `chan` identifies the
`std::packaged_task` allocated at line 88 (and so the shared state behind the
future of line 90); `body` is the bound call it wraps. -/
structure TaskUnit where
  chan : Nat
  body : Outcome
  deriving DecidableEq, Repr

/-- The two container types the header defines (lines 45 and 46). -/
inductive Policy where
  | FIFO_POLICY
  | LIFO_POLICY
  deriving DecidableEq, Repr

/-- The call `mTasks.push(x)`.  A container is a list whose head is the element
`front()` / `top()` returns: `std::queue::push` adds at the back, `std::stack::push`
on top. -/
def Policy.push : Policy → List TaskUnit → TaskUnit → List TaskUnit
  | .FIFO_POLICY, q, t => q ++ [t]
  | .LIFO_POLICY, q, t => t :: q

/-- Where a worker thread is in the lambda of lines 63 to 75 (117 to 129 for the
`LIFO_POLICY` specialisation, which differs only in calling `top()` for `front()`). -/
inductive Worker where
  /-- At line 65, about to construct the `unique_lock`. -/
  | idle
  /-- Holding the mutex, about to evaluate the condition of line 66. -/
  | locked
  /-- The condition of line 66 was true; about to call `condition.wait(lock)`. -/
  | toWait
  /-- Blocked inside `condition.wait`; the mutex is released. -/
  | waiting
  /-- Unblocked inside `condition.wait`, about to take the mutex again. -/
  | woken
  /-- The loop of line 66 is left; holding the mutex, about to evaluate line 68. -/
  | checked
  /-- Line 68 did not return; holding the mutex, about to run lines 70 to 72. -/
  | popping
  /-- Inside the call `lNextTask()` of line 73. -/
  | running (t : TaskUnit)
  /-- Returned at line 69. -/
  | terminated
  /-- An exception left the thread function. -/
  | crashed
  deriving DecidableEq, Repr

/-- Where the thread running `~ThreadPool` (lines 105 to 110) is. -/
inductive Dtor where
  /-- The destructor has not been entered. -/
  | alive
  /-- Line 106 is done. -/
  | stored
  /-- Line 107 is done; the thread is in the join loop of lines 108 and 109. -/
  | joining
  /-- The join loop is over. -/
  | joined
  deriving DecidableEq, Repr

/-- The state of one pool object and of the threads inside its member functions.  The
member `condition` has no field: the threads blocked on it are the workers at
`Worker.waiting`. -/
structure Pool where
  /-- The member `std::atomic<bool> isActive`. -/
  isActive : Bool
  /-- The member `mTasks`, next element to leave first. -/
  mTasks : List TaskUnit
  /-- The member `queue_mutex`: the index of the worker holding it.  `enqueue` and
  `pending` hold it for one container access only, which is one action here. -/
  queue_mutex : Option Nat
  /-- The member `mWorkers`: the threads, each at its program counter. -/
  mWorkers : List Worker
  /-- The shared states of the `packaged_task`s made so far; `none` is not ready. -/
  channels : List (Option Outcome)
  /-- The calls of `enqueue` between line 90 and line 92, with the task each made. -/
  inflight : List TaskUnit
  /-- The number of calls of `enqueue` between line 94 and line 95. -/
  notifying : Nat
  /-- The destructor thread. -/
  dtor : Dtor
  /-- History: the tasks pushed at line 93, in the order of the pushes. -/
  accepted : List TaskUnit
  /-- History: the pairs (worker, task) of the removals at lines 70 to 73, in order. -/
  started : List (Nat × TaskUnit)
  /-- History: the tasks whose call at line 73 has returned, in order. -/
  finished : List TaskUnit
  deriving DecidableEq, Repr

/-- The constructor, lines 60 to 78 (114 to 132 for `LIFO_POLICY`): `numThreads`
threads are started, each at the top of its loop.  Neither the constructor nor the
member declaration of line 57 gives `isActive` a value, so the flag holds what the
default constructor of `std::atomic<bool>` leaves there: `uninit`. -/
def Pool.new (uninit : Bool) (numThreads : Nat) : Pool :=
  { isActive := uninit
    mTasks := []
    queue_mutex := none
    mWorkers := List.replicate numThreads Worker.idle
    channels := []
    inflight := []
    notifying := 0
    dtor := Dtor.alive
    accepted := []
    started := []
    finished := [] }

/-! ## The member functions, one atomic action at a time -/

/-- Lines 84 to 90 of `enqueue`: the flag test, then the allocation of the task and
of its future.  The result is the future (the index of the new channel) or the
`std::runtime_error` thrown at line 85. -/
def Pool.enqueueCheck (s : Pool) (f : Outcome) : Except String Nat × Pool :=
  if s.isActive then
    (Except.ok s.channels.length,
      { s with channels := s.channels ++ [none]
               inflight := s.inflight ++ [{ chan := s.channels.length, body := f }] })
  else
    (Except.error "enqueue on stopped ThreadPool", s)

/-- Lines 91 to 94 of `enqueue`, for the `k`-th call in flight: lock, push, unlock.
The action is not enabled while a worker holds the mutex. -/
def Pool.enqueuePush (p : Policy) (s : Pool) (k : Nat) : Option Pool :=
  match s.inflight[k]? with
  | some t =>
    if s.queue_mutex = none then
      some { s with mTasks := p.push s.mTasks t
                    inflight := s.inflight.eraseIdx k
                    notifying := s.notifying + 1
                    accepted := s.accepted ++ [t] }
    else none
  | none => none

/-- Line 95 of `enqueue`, `condition.notify_one()`: one worker blocked in `wait` is
unblocked (`some i`), or none is blocked and nothing happens (`none`). -/
def Pool.enqueueNotify (s : Pool) (w : Option Nat) : Option Pool :=
  if 0 < s.notifying then
    match w with
    | some i =>
      if s.mWorkers[i]? = some Worker.waiting then
        some { s with notifying := s.notifying - 1
                      mWorkers := s.mWorkers.set i Worker.woken }
      else none
    | none =>
      if Worker.waiting ∈ s.mWorkers then none
      else some { s with notifying := s.notifying - 1 }
  else none

/-- Line 65: worker `i` takes the mutex. -/
def Pool.lock (s : Pool) (i : Nat) : Option Pool :=
  if s.mWorkers[i]? = some Worker.idle ∧ s.queue_mutex = none then
    some { s with queue_mutex := some i, mWorkers := s.mWorkers.set i Worker.locked }
  else none

/-- Line 66: worker `i` evaluates `isActive.load() && mTasks.empty()`. -/
def Pool.loopTest (s : Pool) (i : Nat) : Option Pool :=
  if s.mWorkers[i]? = some Worker.locked then
    if s.isActive && s.mTasks.isEmpty then
      some { s with mWorkers := s.mWorkers.set i Worker.toWait }
    else
      some { s with mWorkers := s.mWorkers.set i Worker.checked }
  else none

/-- Line 67: worker `i` enters `condition.wait(lock)`, which releases the mutex and
blocks. -/
def Pool.wait (s : Pool) (i : Nat) : Option Pool :=
  if s.mWorkers[i]? = some Worker.toWait then
    some { s with queue_mutex := none, mWorkers := s.mWorkers.set i Worker.waiting }
  else none

/-- A spurious wakeup of worker `i`, which `condition_variable::wait` permits. -/
def Pool.wake (s : Pool) (i : Nat) : Option Pool :=
  if s.mWorkers[i]? = some Worker.waiting then
    some { s with mWorkers := s.mWorkers.set i Worker.woken }
  else none

/-- The end of `condition.wait(lock)`: worker `i` takes the mutex again and goes back
to the condition of line 66. -/
def Pool.relock (s : Pool) (i : Nat) : Option Pool :=
  if s.mWorkers[i]? = some Worker.woken ∧ s.queue_mutex = none then
    some { s with queue_mutex := some i, mWorkers := s.mWorkers.set i Worker.locked }
  else none

/-- Lines 68 and 69: worker `i` evaluates `!isActive.load() && mTasks.empty()` and
returns, releasing the mutex, when it holds. -/
def Pool.exitTest (s : Pool) (i : Nat) : Option Pool :=
  if s.mWorkers[i]? = some Worker.checked then
    if !s.isActive && s.mTasks.isEmpty then
      some { s with queue_mutex := none, mWorkers := s.mWorkers.set i Worker.terminated }
    else
      some { s with mWorkers := s.mWorkers.set i Worker.popping }
  else none

/-- Lines 70 to 73: worker `i` copies `front()` (`top()`), pops, unlocks and calls the
copy.  On an empty container `front()` has no defined behaviour: no successor. -/
def Pool.take (s : Pool) (i : Nat) : Option Pool :=
  if s.mWorkers[i]? = some Worker.popping then
    match s.mTasks with
    | t :: rest =>
      some { s with mTasks := rest
                    queue_mutex := none
                    mWorkers := s.mWorkers.set i (Worker.running t)
                    started := s.started ++ [(i, t)] }
    | [] => none
  else none

/-- The call `(*task)()` of a `std::packaged_task` on the shared state `c`: the
outcome of the wrapped call, a value or an exception alike, is stored and the call
returns; on a state that is already set the call itself throws `std::future_error`.
The result is the new shared state, or `none` for the throw. -/
def invoke (c : Option Outcome) (body : Outcome) : Option (Option Outcome) :=
  match c with
  | none => some (some body)
  | some _ => none

/-- Line 73 returning: the call of worker `i` ends and the worker is back at line 65.
An exception leaving `lNextTask()` leaves the thread function. -/
def Pool.finish (s : Pool) (i : Nat) : Option Pool :=
  match s.mWorkers[i]? with
  | some (Worker.running t) =>
    match s.channels[t.chan]? with
    | some c =>
      match invoke c t.body with
      | some c' =>
        some { s with channels := s.channels.set t.chan c'
                      mWorkers := s.mWorkers.set i Worker.idle
                      finished := s.finished ++ [t] }
      | none => some { s with mWorkers := s.mWorkers.set i Worker.crashed }
    | none => some { s with mWorkers := s.mWorkers.set i Worker.crashed }
  | _ => none

/-- Line 106 of the destructor: `isActive = false`, without the mutex. -/
def Pool.dtorStore (s : Pool) : Option Pool :=
  if s.dtor = Dtor.alive then some { s with isActive := false, dtor := Dtor.stored }
  else none

/-- Line 107 of the destructor, `condition.notify_all()`: every worker blocked in
`wait` is unblocked. -/
def Pool.dtorNotifyAll (s : Pool) : Option Pool :=
  if s.dtor = Dtor.stored then
    some { s with dtor := Dtor.joining
                  mWorkers := s.mWorkers.map
                    (fun w => if w = Worker.waiting then Worker.woken else w) }
  else none

/-- Lines 108 and 109 of the destructor: the join loop ends once every thread has
returned. -/
def Pool.dtorJoin (s : Pool) : Option Pool :=
  if s.dtor = Dtor.joining ∧ (∀ w ∈ s.mWorkers, w = Worker.terminated) then
    some { s with dtor := Dtor.joined }
  else none

/-- The atomic actions of the threads of a pool. -/
inductive Action where
  | enqueueCheck (f : Outcome)
  | enqueuePush (k : Nat)
  | enqueueNotify (w : Option Nat)
  | lock (i : Nat)
  | loopTest (i : Nat)
  | wait (i : Nat)
  | wake (i : Nat)
  | relock (i : Nat)
  | exitTest (i : Nat)
  | take (i : Nat)
  | finish (i : Nat)
  | dtorStore
  | dtorNotifyAll
  | dtorJoin
  deriving DecidableEq, Repr

/-- One action of one thread; `none` when the action is not enabled. -/
def step (p : Policy) (s : Pool) : Action → Option Pool
  | .enqueueCheck f => some (s.enqueueCheck f).2
  | .enqueuePush k => s.enqueuePush p k
  | .enqueueNotify w => s.enqueueNotify w
  | .lock i => s.lock i
  | .loopTest i => s.loopTest i
  | .wait i => s.wait i
  | .wake i => s.wake i
  | .relock i => s.relock i
  | .exitTest i => s.exitTest i
  | .take i => s.take i
  | .finish i => s.finish i
  | .dtorStore => s.dtorStore
  | .dtorNotifyAll => s.dtorNotifyAll
  | .dtorJoin => s.dtorJoin

/-- An interleaving: the actions of a list, one after the other. -/
def run (p : Policy) (s : Pool) : List Action → Option Pool
  | [] => some s
  | a :: as => (step p s a).bind (fun s' => run p s' as)

/-- A call of `enqueue` that no other thread interleaves with: lines 84 to 96.  The
result is `none` when the call blocks on the mutex; otherwise the returned future or
the exception, with the state the call leaves. -/
def enqueue (p : Policy) (s : Pool) (f : Outcome) (w : Option Nat) :
    Option (Except String Nat × Pool) :=
  match s.enqueueCheck f with
  | (Except.error e, s1) => some (Except.error e, s1)
  | (Except.ok fut, s1) =>
    (s1.enqueuePush p (s1.inflight.length - 1)).bind (fun s2 =>
      (s2.enqueueNotify w).map (fun s3 => (Except.ok fut, s3)))

/-- The conversion of a `size_t` to the `int` a function returns: the value modulo
`2 ^ 32` read as a signed 32-bit number (what C++20 prescribes and the
compilers did before it). -/
def toInt (n : Nat) : Int :=
  if n % 2 ^ 32 < 2 ^ 31 then (n % 2 ^ 32 : Nat) else (n % 2 ^ 32 : Nat) - 2 ^ 32

/-- The member `pending`, lines 100 to 103, when no other thread interleaves: the
size of the container converted to `int`, and the state it leaves; `none` when the
call blocks on the mutex. -/
def pending (s : Pool) : Option (Int × Pool) :=
  if s.queue_mutex = none then some (toInt s.mTasks.length, s) else none

/-- The member `get` of the future `fut`: the stored outcome, `none` while the shared
state is not ready (the call blocks). -/
def get (s : Pool) (fut : Nat) : Option Outcome :=
  (s.channels[fut]?).join

/-! ## Invariants of the reachable states -/

/-- The program counters at which a worker holds `queue_mutex`. -/
def Worker.holds : Worker → Bool
  | .locked => true
  | .toWait => true
  | .checked => true
  | .popping => true
  | _ => false

/-- The mutex is held by exactly the worker recorded as its owner, and a worker past
the test of line 66 (line 68) has the container as that test left it. -/
structure LockInv (s : Pool) : Prop where
  owner : ∀ (i : Nat) (w : Worker), s.mWorkers[i]? = some w → (w.holds = true ↔ s.queue_mutex = some i)
  checked : ∀ i : Nat, s.mWorkers[i]? = some Worker.checked → s.isActive = false ∨ s.mTasks ≠ []
  popping : ∀ i : Nat, s.mWorkers[i]? = some Worker.popping → s.mTasks ≠ []

/-- The program counters of a worker that has a task in hand or has lost its thread. -/
def Worker.busy : Worker → Bool
  | .running _ => true
  | .crashed => true
  | _ => false

/-- What the histories, the container, the workers and the shared states of the
tasks have to do with one another. -/
structure Ledger (s : Pool) : Prop where
  ids : ((s.inflight ++ s.accepted).map TaskUnit.chan).Nodup
  bound : ∀ t ∈ s.inflight ++ s.accepted, t.chan < s.channels.length
  conserve : (s.started.map Prod.snd ++ s.mTasks).Perm s.accepted
  running : ∀ (i : Nat) (t : TaskUnit), s.mWorkers[i]? = some (Worker.running t) →
    (i, t) ∈ s.started ∧ t ∉ s.finished
  started : ∀ (i : Nat) (t : TaskUnit), (i, t) ∈ s.started →
    t ∈ s.finished ∨ s.mWorkers[i]? = some (Worker.running t)
  finished : ∀ t ∈ s.finished, t ∈ s.started.map Prod.snd
  once : s.finished.Nodup
  ready : ∀ t ∈ s.finished, s.channels[t.chan]? = some (some t.body)
  unready : ∀ t ∈ s.inflight ++ s.accepted, t ∉ s.finished → s.channels[t.chan]? = some none
  sound : ∀ i : Nat, s.mWorkers[i]? ≠ some Worker.crashed

/-- A worker has returned only if the flag is clear; the flag is clear once the
destructor has begun; and a flag that is clear before the destructor begins was never
set, so no task was ever taken in. -/
structure LifeInv (s : Pool) : Prop where
  term : ∀ i : Nat, s.mWorkers[i]? = some Worker.terminated → s.isActive = false
  dtor : s.dtor ≠ Dtor.alive → s.isActive = false
  fresh : s.dtor = Dtor.alive → s.isActive = false → s.inflight = [] ∧ s.accepted = []

/-- The state of a pool whose destructor has begun, `A` being the tasks accepted
before: the flag is clear, and as long as no further task is accepted, the container
is empty once a worker has returned. -/
structure Draining (A : List TaskUnit) (s : Pool) : Prop where
  stopped : s.isActive = false
  grows : ∃ new, s.accepted = A ++ new
  empty : s.accepted = A → (∃ i : Nat, s.mWorkers[i]? = some Worker.terminated) → s.mTasks = []

/-- The flag is clear, no call of `enqueue` is in flight, and the tasks accepted are
those of the list `A`. -/
structure Quiet (A : List TaskUnit) (s : Pool) : Prop where
  stopped : s.isActive = false
  quiet : s.inflight = []
  same : s.accepted = A

/-- The tasks of the list `L` leave the container in the order of `L`: those that
have left since the history `started` had `base` entries are the first `k` of `L`, in
that order, and the others are in the container, in that order. -/
structure Leaving (L : List TaskUnit) (base : Nat) (s : Pool) : Prop where
  base_le : base ≤ s.started.length
  bound : ∀ t ∈ L, t.chan < s.channels.length
  apart : ∀ t ∈ s.inflight, t ∉ L
  split : ∃ k, ((s.started.drop base).map Prod.snd).filter (fun x => decide (x ∈ L)) = L.take k ∧
    s.mTasks.filter (fun x => decide (x ∈ L)) = L.drop k

/-- The accepted tasks that no worker has started, in the order of their acceptance. -/
def Pool.waitingTasks (s : Pool) : List TaskUnit :=
  s.accepted.filter (fun t => decide (t ∉ s.started.map Prod.snd))

/-- The container of a pool of policy `p` as the histories determine it: the accepted
tasks not yet started, oldest first in a queue and latest first in a stack. -/
def Policy.arrange : Policy → List TaskUnit → List TaskUnit
  | .FIFO_POLICY, l => l
  | .LIFO_POLICY, l => l.reverse

/-! ## Example runs and states -/

/-- Three calls of `enqueue`, one after the other, on a pool whose worker has not run:
the first callable returns 10, the second 20, the third throws. -/
def threeCalls : List Action :=
  [Action.enqueueCheck (Outcome.value 10), Action.enqueuePush 0, Action.enqueueNotify none,
   Action.enqueueCheck (Outcome.value 20), Action.enqueuePush 0, Action.enqueueNotify none,
   Action.enqueueCheck (Outcome.failure "boom"), Action.enqueuePush 0,
   Action.enqueueNotify none]

/-- One iteration of the loop of worker `i` that finds a task and runs it. -/
def iteration (i : Nat) : List Action :=
  [Action.lock i, Action.loopTest i, Action.exitTest i, Action.take i, Action.finish i]

/-- The last iteration of worker `i`: the flag is clear and the container empty. -/
def lastIteration (i : Nat) : List Action :=
  [Action.lock i, Action.loopTest i, Action.exitTest i]

/-- The task of the first call of `threeCalls`. -/
def t0 : TaskUnit := { chan := 0, body := Outcome.value 10 }

/-- The task of the second call of `threeCalls`. -/
def t1 : TaskUnit := { chan := 1, body := Outcome.value 20 }

/-- The task of the third call of `threeCalls`, whose callable throws. -/
def t2 : TaskUnit := { chan := 2, body := Outcome.failure "boom" }

/-- The pool of one worker after `threeCalls`, with a queue. -/
def fifoQueued : Pool :=
  { isActive := true
    mTasks := [t0, t1, t2]
    queue_mutex := none
    mWorkers := [Worker.idle]
    channels := [none, none, none]
    inflight := []
    notifying := 0
    dtor := Dtor.alive
    accepted := [t0, t1, t2]
    started := []
    finished := [] }

/-- The pool `fifoQueued` after three iterations of its worker. -/
def fifoDone : Pool :=
  { isActive := true
    mTasks := []
    queue_mutex := none
    mWorkers := [Worker.idle]
    channels := [some t0.body, some t1.body, some t2.body]
    inflight := []
    notifying := 0
    dtor := Dtor.alive
    accepted := [t0, t1, t2]
    started := [(0, t0), (0, t1), (0, t2)]
    finished := [t0, t1, t2] }

/-- The pool of one worker after `threeCalls`, with a stack. -/
def lifoQueued : Pool :=
  { isActive := true
    mTasks := [t2, t1, t0]
    queue_mutex := none
    mWorkers := [Worker.idle]
    channels := [none, none, none]
    inflight := []
    notifying := 0
    dtor := Dtor.alive
    accepted := [t0, t1, t2]
    started := []
    finished := [] }

/-- The pool `lifoQueued` after three iterations of its worker. -/
def lifoDone : Pool :=
  { isActive := true
    mTasks := []
    queue_mutex := none
    mWorkers := [Worker.idle]
    channels := [some t0.body, some t1.body, some t2.body]
    inflight := []
    notifying := 0
    dtor := Dtor.alive
    accepted := [t0, t1, t2]
    started := [(0, t2), (0, t1), (0, t0)]
    finished := [t2, t1, t0] }

/-- A pool of two workers, one blocked in `wait`, whose flag is clear. -/
def stoppedPool : Pool :=
  { isActive := false
    mTasks := [t0]
    queue_mutex := none
    mWorkers := [Worker.waiting, Worker.idle]
    channels := [none]
    inflight := []
    notifying := 0
    dtor := Dtor.stored
    accepted := [t0]
    started := []
    finished := [] }

/-- The pool `stoppedPool` with the flag set and the destructor not entered. -/
def activePool : Pool := { stoppedPool with isActive := true, dtor := Dtor.alive }

/-- The pool of one worker, with a stack, after the first two calls of `threeCalls`. -/
def twoQueued : Pool :=
  { isActive := true
    mTasks := [t1, t0]
    queue_mutex := none
    mWorkers := [Worker.idle]
    channels := [none, none]
    inflight := []
    notifying := 0
    dtor := Dtor.alive
    accepted := [t0, t1]
    started := []
    finished := [] }

/-- The rest of a third call of `enqueue` after its test, then one iteration of the
worker. -/
def thirdCallRuns : List Action :=
  [Action.enqueuePush 0, Action.enqueueNotify none] ++ iteration 0

/-- The pool `twoQueued` after a third call, with the callable that throws, and one
iteration of the worker, which ran the task of that call. -/
def thirdDelivered : Pool :=
  { isActive := true
    mTasks := [t1, t0]
    queue_mutex := none
    mWorkers := [Worker.idle]
    channels := [none, none, some (Outcome.failure "boom")]
    inflight := []
    notifying := 0
    dtor := Dtor.alive
    accepted := [t0, t1, t2]
    started := [(0, t2)]
    finished := [t2] }

/-- The pool of one worker in which a task was queued and the destructor cleared the
flag between the two tests of the worker: the worker is about to run lines 70 to 72. -/
def racedPool : Pool :=
  { isActive := false
    mTasks := [t0]
    queue_mutex := some 0
    mWorkers := [Worker.popping]
    channels := [none]
    inflight := []
    notifying := 1
    dtor := Dtor.stored
    accepted := [t0]
    started := []
    finished := [] }

/-- The pool of one worker that tested the flag before the destructor cleared it and
entered `wait` after the destructor had notified. -/
def stuckPool : Pool :=
  { isActive := false
    mTasks := []
    queue_mutex := none
    mWorkers := [Worker.waiting]
    channels := []
    inflight := []
    notifying := 0
    dtor := Dtor.joining
    accepted := []
    started := []
    finished := [] }

/-- The pool of one worker in which a call of `enqueue` passed the test of line 84
before the destructor began and pushed its task after the worker had returned. -/
def latePool : Pool :=
  { isActive := false
    mTasks := [t0]
    queue_mutex := none
    mWorkers := [Worker.terminated]
    channels := [none]
    inflight := []
    notifying := 1
    dtor := Dtor.joining
    accepted := [t0]
    started := []
    finished := [] }

/-- The pool `lifoQueued` after the destructor has run to its end. -/
def lifoJoined : Pool :=
  { isActive := false
    mTasks := []
    queue_mutex := none
    mWorkers := [Worker.terminated]
    channels := [some t0.body, some t1.body, some t2.body]
    inflight := []
    notifying := 0
    dtor := Dtor.joined
    accepted := [t0, t1, t2]
    started := [(0, t2), (0, t1), (0, t0)]
    finished := [t2, t1, t0] }

/-- The destructor on a pool of one worker that has three tasks queued. -/
def shutdown : List Action :=
  Action.dtorNotifyAll :: (iteration 0 ++ iteration 0 ++ iteration 0 ++ lastIteration 0
    ++ [Action.dtorJoin])

/-! ## A queue of `m` tasks -/

/-- The tasks `0, ..., m - 1` of `m` calls of `enqueue` with one callable. -/
def floodTasks (m : Nat) : List TaskUnit :=
  (List.range m).map (fun i => { chan := i, body := Outcome.value 0 })

/-- A run of `m` calls of `enqueue`, one after the other. -/
def flood : Nat → List Action
  | 0 => []
  | m + 1 => flood m ++ [Action.enqueueCheck (Outcome.value 0), Action.enqueuePush 0,
      Action.enqueueNotify none]

/-- The pool without workers (`numThreads = 0`) after `m` calls of `enqueue`. -/
def flooded (m : Nat) : Pool :=
  { isActive := true
    mTasks := floodTasks m
    queue_mutex := none
    mWorkers := []
    channels := List.replicate m none
    inflight := []
    notifying := 0
    dtor := Dtor.alive
    accepted := floodTasks m
    started := []
    finished := [] }

/-! ## What an enabled action does -/

theorem Pool.enqueueCheck_active {s : Pool} (f : Outcome) (h : s.isActive = true) :
    s.enqueueCheck f = (Except.ok s.channels.length,
      { s with channels := s.channels ++ [none]
               inflight := s.inflight ++ [{ chan := s.channels.length, body := f }] }) := by
  simp [Pool.enqueueCheck, h]

theorem Pool.enqueueCheck_stopped {s : Pool} (f : Outcome) (h : s.isActive = false) :
    s.enqueueCheck f = (Except.error "enqueue on stopped ThreadPool", s) := by
  simp [Pool.enqueueCheck, h]

theorem Pool.enqueuePush_some {p : Policy} {s s' : Pool} {k : Nat}
    (h : s.enqueuePush p k = some s') :
    ∃ t, s.inflight[k]? = some t ∧ s.queue_mutex = none ∧
      s' = { s with mTasks := p.push s.mTasks t
                    inflight := s.inflight.eraseIdx k
                    notifying := s.notifying + 1
                    accepted := s.accepted ++ [t] } := by
  simp only [Pool.enqueuePush] at h
  split at h
  · rename_i t ht
    split at h
    · rename_i hm
      exact ⟨t, ht, hm, (Option.some.inj h).symm⟩
    · simp at h
  · simp at h

theorem Pool.enqueueNotify_some {s s' : Pool} {w : Option Nat}
    (h : s.enqueueNotify w = some s') :
    (∃ i, w = some i ∧ s.mWorkers[i]? = some Worker.waiting ∧
        s' = { s with notifying := s.notifying - 1
                      mWorkers := s.mWorkers.set i Worker.woken }) ∨
      (w = none ∧ s' = { s with notifying := s.notifying - 1 }) := by
  simp only [Pool.enqueueNotify] at h
  split at h
  · split at h
    · rename_i i
      split at h
      · rename_i hw
        exact Or.inl ⟨i, rfl, hw, (Option.some.inj h).symm⟩
      · simp at h
    · split at h
      · simp at h
      · exact Or.inr ⟨rfl, (Option.some.inj h).symm⟩
  · simp at h

theorem Pool.lock_some {s s' : Pool} {i : Nat} (h : s.lock i = some s') :
    s.mWorkers[i]? = some Worker.idle ∧ s.queue_mutex = none ∧
      s' = { s with queue_mutex := some i, mWorkers := s.mWorkers.set i Worker.locked } := by
  simp only [Pool.lock] at h
  split at h
  · rename_i hg
    exact ⟨hg.1, hg.2, (Option.some.inj h).symm⟩
  · simp at h

theorem Pool.loopTest_some {s s' : Pool} {i : Nat} (h : s.loopTest i = some s') :
    s.mWorkers[i]? = some Worker.locked ∧
      ((s.isActive = true ∧ s.mTasks = [] ∧
          s' = { s with mWorkers := s.mWorkers.set i Worker.toWait }) ∨
       ((s.isActive = false ∨ s.mTasks ≠ []) ∧
          s' = { s with mWorkers := s.mWorkers.set i Worker.checked })) := by
  simp only [Pool.loopTest] at h
  split at h
  · rename_i hw
    refine ⟨hw, ?_⟩
    split at h
    · rename_i hb
      simp only [Bool.and_eq_true, List.isEmpty_iff] at hb
      exact Or.inl ⟨hb.1, hb.2, (Option.some.inj h).symm⟩
    · rename_i hb
      simp only [Bool.and_eq_true, List.isEmpty_iff, not_and] at hb
      refine Or.inr ⟨?_, (Option.some.inj h).symm⟩
      rcases Bool.eq_false_or_eq_true s.isActive with hA | hA
      · exact Or.inr (hb hA)
      · exact Or.inl hA
  · simp at h

theorem Pool.wait_some {s s' : Pool} {i : Nat} (h : s.wait i = some s') :
    s.mWorkers[i]? = some Worker.toWait ∧
      s' = { s with queue_mutex := none, mWorkers := s.mWorkers.set i Worker.waiting } := by
  simp only [Pool.wait] at h
  split at h
  · rename_i hw
    exact ⟨hw, (Option.some.inj h).symm⟩
  · simp at h

theorem Pool.wake_some {s s' : Pool} {i : Nat} (h : s.wake i = some s') :
    s.mWorkers[i]? = some Worker.waiting ∧
      s' = { s with mWorkers := s.mWorkers.set i Worker.woken } := by
  simp only [Pool.wake] at h
  split at h
  · rename_i hw
    exact ⟨hw, (Option.some.inj h).symm⟩
  · simp at h

theorem Pool.relock_some {s s' : Pool} {i : Nat} (h : s.relock i = some s') :
    s.mWorkers[i]? = some Worker.woken ∧ s.queue_mutex = none ∧
      s' = { s with queue_mutex := some i, mWorkers := s.mWorkers.set i Worker.locked } := by
  simp only [Pool.relock] at h
  split at h
  · rename_i hg
    exact ⟨hg.1, hg.2, (Option.some.inj h).symm⟩
  · simp at h

theorem Pool.exitTest_some {s s' : Pool} {i : Nat} (h : s.exitTest i = some s') :
    s.mWorkers[i]? = some Worker.checked ∧
      ((s.isActive = false ∧ s.mTasks = [] ∧
          s' = { s with queue_mutex := none
                        mWorkers := s.mWorkers.set i Worker.terminated }) ∨
       ((s.isActive = true ∨ s.mTasks ≠ []) ∧
          s' = { s with mWorkers := s.mWorkers.set i Worker.popping })) := by
  simp only [Pool.exitTest] at h
  split at h
  · rename_i hw
    refine ⟨hw, ?_⟩
    split at h
    · rename_i hb
      simp only [Bool.and_eq_true, Bool.not_eq_true', List.isEmpty_iff] at hb
      exact Or.inl ⟨hb.1, hb.2, (Option.some.inj h).symm⟩
    · rename_i hb
      simp only [Bool.and_eq_true, Bool.not_eq_true', List.isEmpty_iff, not_and] at hb
      refine Or.inr ⟨?_, (Option.some.inj h).symm⟩
      rcases Bool.eq_false_or_eq_true s.isActive with hA | hA
      · exact Or.inl hA
      · exact Or.inr (hb hA)
  · simp at h

theorem Pool.take_some {s s' : Pool} {i : Nat} (h : s.take i = some s') :
    s.mWorkers[i]? = some Worker.popping ∧ ∃ t rest, s.mTasks = t :: rest ∧
      s' = { s with mTasks := rest
                    queue_mutex := none
                    mWorkers := s.mWorkers.set i (Worker.running t)
                    started := s.started ++ [(i, t)] } := by
  simp only [Pool.take] at h
  split at h
  · rename_i hw
    refine ⟨hw, ?_⟩
    split at h
    · rename_i t rest hq
      exact ⟨t, rest, hq, (Option.some.inj h).symm⟩
    · simp at h
  · simp at h

theorem Pool.finish_some {s s' : Pool} {i : Nat} (h : s.finish i = some s') :
    ∃ t, s.mWorkers[i]? = some (Worker.running t) ∧
      ((s.channels[t.chan]? = some none ∧
          s' = { s with channels := s.channels.set t.chan (some t.body)
                        mWorkers := s.mWorkers.set i Worker.idle
                        finished := s.finished ++ [t] }) ∨
       (s.channels[t.chan]? ≠ some none ∧
          s' = { s with mWorkers := s.mWorkers.set i Worker.crashed })) := by
  simp only [Pool.finish] at h
  split at h
  · rename_i t hw
    refine ⟨t, hw, ?_⟩
    split at h
    · rename_i c hc
      cases c with
      | none =>
        simp only [invoke, Option.some.injEq] at h
        exact Or.inl ⟨hc, h.symm⟩
      | some o =>
        simp only [invoke, Option.some.injEq] at h
        exact Or.inr ⟨by simp [hc], h.symm⟩
    · rename_i hc
      exact Or.inr ⟨by simp [hc], (Option.some.inj h).symm⟩
  · simp at h

theorem Pool.dtorStore_some {s s' : Pool} (h : s.dtorStore = some s') :
    s.dtor = Dtor.alive ∧ s' = { s with isActive := false, dtor := Dtor.stored } := by
  simp only [Pool.dtorStore] at h
  split at h
  · rename_i hd
    exact ⟨hd, (Option.some.inj h).symm⟩
  · simp at h

theorem Pool.dtorNotifyAll_some {s s' : Pool} (h : s.dtorNotifyAll = some s') :
    s.dtor = Dtor.stored ∧
      s' = { s with dtor := Dtor.joining
                    mWorkers := s.mWorkers.map
                      (fun w => if w = Worker.waiting then Worker.woken else w) } := by
  simp only [Pool.dtorNotifyAll] at h
  split at h
  · rename_i hd
    exact ⟨hd, (Option.some.inj h).symm⟩
  · simp at h

theorem Pool.dtorJoin_some {s s' : Pool} (h : s.dtorJoin = some s') :
    s.dtor = Dtor.joining ∧ (∀ w ∈ s.mWorkers, w = Worker.terminated) ∧
      s' = { s with dtor := Dtor.joined } := by
  simp only [Pool.dtorJoin] at h
  split at h
  · rename_i hd
    exact ⟨hd.1, hd.2, (Option.some.inj h).symm⟩
  · simp at h

/-! ## Auxiliary facts on lists -/

theorem getElem?_set_of_some {α : Type} {l : List α} {i : Nat} {a : α} (b : α) (j : Nat)
    (h : l[i]? = some a) : (l.set i b)[j]? = if i = j then some b else l[j]? := by
  have hi : i < l.length := (List.getElem?_eq_some_iff.mp h).1
  rw [List.getElem?_set]
  simp [hi]

/-! ## The mutex and the reads of the container -/

theorem lockInv_init (b : Bool) (n : Nat) : LockInv (Pool.new b n) := by
  refine ⟨?_, ?_, ?_⟩ <;> intro i <;> simp [Pool.new, List.getElem?_replicate] <;>
    intros <;> simp_all [Worker.holds]

/-- Every action keeps `LockInv`. -/
theorem lockInv_step {p : Policy} {s s' : Pool} {a : Action} (hs : LockInv s)
    (h : ThreadPool.step p s a = some s') : LockInv s' := by
  obtain ⟨ho, hc, hp⟩ := hs
  cases a with
  | enqueueCheck f =>
    simp only [ThreadPool.step, Pool.enqueueCheck, Option.some.injEq] at h
    subst h
    split <;> exact ⟨ho, hc, hp⟩
  | enqueuePush k =>
    obtain ⟨t, ht, hm, rfl⟩ := Pool.enqueuePush_some h
    refine ⟨ho, fun j hj => ?_, fun j hj => ?_⟩
    · have h1 := (ho j _ hj).mp rfl
      simp [hm] at h1
    · have h1 := (ho j _ hj).mp rfl
      simp [hm] at h1
  | enqueueNotify w =>
    rcases Pool.enqueueNotify_some h with ⟨i, -, hw, rfl⟩ | ⟨-, rfl⟩
    · refine ⟨fun j w hj => ?_, fun j hj => ?_, fun j hj => ?_⟩ <;>
        simp only [getElem?_set_of_some _ _ hw] at hj <;>
        split_ifs at hj with hij <;>
        (try simp only [Option.some.injEq, reduceCtorEq] at hj) <;>
        (try subst hj) <;> (try subst hij) <;>
        (try have h1 := ho _ _ hj) <;> (try have h2 := hc _ hj) <;>
        (try have h3 := hp _ hj) <;> (try have h4 := ho _ _ hw) <;>
        simp_all [Worker.holds]
    · exact ⟨ho, hc, hp⟩
  | lock i =>
    obtain ⟨hw, hm, rfl⟩ := Pool.lock_some h
    refine ⟨fun j w hj => ?_, fun j hj => ?_, fun j hj => ?_⟩ <;>
      simp only [getElem?_set_of_some _ _ hw] at hj <;>
      split_ifs at hj with hij <;>
      (try simp only [Option.some.injEq, reduceCtorEq] at hj) <;>
      (try subst hj) <;> (try subst hij) <;>
      (try have h1 := ho _ _ hj) <;> (try have h2 := hc _ hj) <;>
      (try have h3 := hp _ hj) <;> (try have h4 := ho _ _ hw) <;>
      simp_all [Worker.holds]
  | loopTest i =>
    obtain ⟨hw, ⟨hA, hq, rfl⟩ | ⟨hb, rfl⟩⟩ := Pool.loopTest_some h <;>
      refine ⟨fun j w hj => ?_, fun j hj => ?_, fun j hj => ?_⟩ <;>
      simp only [getElem?_set_of_some _ _ hw] at hj <;>
      split_ifs at hj with hij <;>
      (try simp only [Option.some.injEq, reduceCtorEq] at hj) <;>
      (try subst hj) <;> (try subst hij) <;>
      (try have h1 := ho _ _ hj) <;> (try have h2 := hc _ hj) <;>
      (try have h3 := hp _ hj) <;> (try have h4 := ho _ _ hw) <;>
      simp_all [Worker.holds]
  | wait i =>
    obtain ⟨hw, rfl⟩ := Pool.wait_some h
    refine ⟨fun j w hj => ?_, fun j hj => ?_, fun j hj => ?_⟩ <;>
      simp only [getElem?_set_of_some _ _ hw] at hj <;>
      split_ifs at hj with hij <;>
      (try simp only [Option.some.injEq, reduceCtorEq] at hj) <;>
      (try subst hj) <;> (try subst hij) <;>
      (try have h1 := ho _ _ hj) <;> (try have h2 := hc _ hj) <;>
      (try have h3 := hp _ hj) <;> (try have h4 := ho _ _ hw) <;>
      simp_all [Worker.holds]
  | wake i =>
    obtain ⟨hw, rfl⟩ := Pool.wake_some h
    refine ⟨fun j w hj => ?_, fun j hj => ?_, fun j hj => ?_⟩ <;>
      simp only [getElem?_set_of_some _ _ hw] at hj <;>
      split_ifs at hj with hij <;>
      (try simp only [Option.some.injEq, reduceCtorEq] at hj) <;>
      (try subst hj) <;> (try subst hij) <;>
      (try have h1 := ho _ _ hj) <;> (try have h2 := hc _ hj) <;>
      (try have h3 := hp _ hj) <;> (try have h4 := ho _ _ hw) <;>
      simp_all [Worker.holds]
  | relock i =>
    obtain ⟨hw, hm, rfl⟩ := Pool.relock_some h
    refine ⟨fun j w hj => ?_, fun j hj => ?_, fun j hj => ?_⟩ <;>
      simp only [getElem?_set_of_some _ _ hw] at hj <;>
      split_ifs at hj with hij <;>
      (try simp only [Option.some.injEq, reduceCtorEq] at hj) <;>
      (try subst hj) <;> (try subst hij) <;>
      (try have h1 := ho _ _ hj) <;> (try have h2 := hc _ hj) <;>
      (try have h3 := hp _ hj) <;> (try have h4 := ho _ _ hw) <;>
      simp_all [Worker.holds]
  | exitTest i =>
    have h5 := hc i (Pool.exitTest_some h).1
    obtain ⟨hw, ⟨hA, hq, rfl⟩ | ⟨hb, rfl⟩⟩ := Pool.exitTest_some h <;>
      refine ⟨fun j w hj => ?_, fun j hj => ?_, fun j hj => ?_⟩ <;>
      simp only [getElem?_set_of_some _ _ hw] at hj <;>
      split_ifs at hj with hij <;>
      (try simp only [Option.some.injEq, reduceCtorEq] at hj) <;>
      (try subst hj) <;> (try subst hij) <;>
      (try have h1 := ho _ _ hj) <;> (try have h2 := hc _ hj) <;>
      (try have h3 := hp _ hj) <;> (try have h4 := ho _ _ hw) <;>
      (try rcases Bool.eq_false_or_eq_true s.isActive with hA | hA) <;>
      simp_all [Worker.holds]
  | take i =>
    obtain ⟨hw, t, rest, hq, rfl⟩ := Pool.take_some h
    refine ⟨fun j w hj => ?_, fun j hj => ?_, fun j hj => ?_⟩ <;>
      simp only [getElem?_set_of_some _ _ hw] at hj <;>
      split_ifs at hj with hij <;>
      (try simp only [Option.some.injEq, reduceCtorEq] at hj) <;>
      (try subst hj) <;> (try subst hij) <;>
      (try have h1 := ho _ _ hj) <;> (try have h2 := hc _ hj) <;>
      (try have h3 := hp _ hj) <;> (try have h4 := ho _ _ hw) <;>
      simp_all [Worker.holds]
  | finish i =>
    obtain ⟨t, hw, ⟨hc0, rfl⟩ | ⟨hc0, rfl⟩⟩ := Pool.finish_some h <;>
      refine ⟨fun j w hj => ?_, fun j hj => ?_, fun j hj => ?_⟩ <;>
      simp only [getElem?_set_of_some _ _ hw] at hj <;>
      split_ifs at hj with hij <;>
      (try simp only [Option.some.injEq, reduceCtorEq] at hj) <;>
      (try subst hj) <;> (try subst hij) <;>
      (try have h1 := ho _ _ hj) <;> (try have h2 := hc _ hj) <;>
      (try have h3 := hp _ hj) <;> (try have h4 := ho _ _ hw) <;>
      simp_all [Worker.holds]
  | dtorStore =>
    obtain ⟨hd, rfl⟩ := Pool.dtorStore_some h
    exact ⟨ho, fun j _ => Or.inl rfl, hp⟩
  | dtorNotifyAll =>
    obtain ⟨hd, rfl⟩ := Pool.dtorNotifyAll_some h
    refine ⟨fun j w hj => ?_, fun j hj => ?_, fun j hj => ?_⟩ <;>
      simp only [List.getElem?_map, Option.map_eq_some'] at hj <;>
      obtain ⟨w0, hw0, hf⟩ := hj <;>
      split_ifs at hf with hww <;>
      (try subst hf) <;> (try subst hww) <;>
      (try have h1 := ho _ _ hw0) <;> (try have h2 := hc _ hw0) <;>
      (try have h3 := hp _ hw0) <;>
      simp_all [Worker.holds]
  | dtorJoin =>
    obtain ⟨hd, hall, rfl⟩ := Pool.dtorJoin_some h
    exact ⟨ho, hc, hp⟩

/-! ## The ledger of tasks -/

theorem perm_cons_eraseIdx {α : Type} :
    ∀ {l : List α} {k : Nat} {t : α}, l[k]? = some t → l.Perm (t :: l.eraseIdx k)
  | [], k, t, h => by simp at h
  | a :: l, 0, t, h => by
    simp only [List.getElem?_cons_zero, Option.some.injEq] at h
    subst h
    simp
  | a :: l, k + 1, t, h => by
    simp only [List.getElem?_cons_succ] at h
    have ih := perm_cons_eraseIdx h
    simp only [List.eraseIdx_cons_succ]
    exact (List.Perm.cons a ih).trans (List.Perm.swap t a _)

theorem Policy.push_perm (p : Policy) (q : List TaskUnit) (t : TaskUnit) :
    (p.push q t).Perm (t :: q) := by
  cases p
  · simp [Policy.push, List.perm_append_singleton]
  · exact List.Perm.refl _

theorem getElem?_append_of_some {α : Type} {l : List α} {i : Nat} {a : α} (l' : List α)
    (h : l[i]? = some a) : (l ++ l')[i]? = some a := by
  have hi : i < l.length := (List.getElem?_eq_some_iff.mp h).1
  rw [List.getElem?_append_left hi, h]

theorem fst_unique_of_nodup_snd {l : List (Nat × TaskUnit)} (hn : (l.map Prod.snd).Nodup)
    {i j : Nat} {t : TaskUnit} (hi : (i, t) ∈ l) (hj : (j, t) ∈ l) : i = j := by
  have := List.inj_on_of_nodup_map hn hi hj rfl
  exact congrArg Prod.fst this

theorem ledger_init (b : Bool) (n : Nat) : Ledger (Pool.new b n) := by
  refine ⟨by simp [Pool.new], by simp [Pool.new], by simp [Pool.new], ?_, by simp [Pool.new],
    by simp [Pool.new], by simp [Pool.new], by simp [Pool.new], by simp [Pool.new], ?_⟩
  · intro i t h
    simp only [Pool.new, List.getElem?_replicate] at h
    split_ifs at h <;> simp at h
  · intro i h
    simp only [Pool.new, List.getElem?_replicate] at h
    split_ifs at h <;> simp at h

theorem Ledger.accepted_nodup {s : Pool} (hs : Ledger s) : s.accepted.Nodup := by
  have h1 := hs.ids
  rw [List.map_append] at h1
  exact (List.Nodup.of_append_right h1).of_map _

theorem Ledger.started_nodup {s : Pool} (hs : Ledger s) : (s.started.map Prod.snd).Nodup := by
  have h1 := hs.conserve.nodup_iff.mpr hs.accepted_nodup
  exact List.Nodup.of_append_left h1

theorem Ledger.mTasks_nodup {s : Pool} (hs : Ledger s) : s.mTasks.Nodup := by
  have h1 := hs.conserve.nodup_iff.mpr hs.accepted_nodup
  exact List.Nodup.of_append_right h1

theorem Ledger.mem_accepted_of_mem_mTasks {s : Pool} (hs : Ledger s) {t : TaskUnit}
    (h : t ∈ s.mTasks) : t ∈ s.accepted :=
  hs.conserve.subset (List.mem_append_right _ h)

theorem Ledger.mem_accepted_of_started {s : Pool} (hs : Ledger s) {i : Nat} {t : TaskUnit}
    (h : (i, t) ∈ s.started) : t ∈ s.accepted :=
  hs.conserve.subset (List.mem_append_left _ (List.mem_map_of_mem Prod.snd h))

/-- A change of the workers that moves none of them into or out of a call, and of the
mutex, the flag, the notification count and the destructor, keeps the ledger. -/
theorem ledger_frame {s : Pool} (hs : Ledger s) (ws : List Worker) (m : Option Nat)
    (b : Bool) (k : Nat) (d : Dtor)
    (hw : ∀ (j : Nat) (w : Worker), w.busy = true → (ws[j]? = some w ↔ s.mWorkers[j]? = some w)) :
    Ledger { s with isActive := b, queue_mutex := m, mWorkers := ws, notifying := k, dtor := d } := by
  refine ⟨hs.ids, hs.bound, hs.conserve, ?_, ?_, hs.finished, hs.once, hs.ready, hs.unready, ?_⟩
  · intro i t h
    exact hs.running i t ((hw i (Worker.running t) rfl).mp h)
  · intro i t h
    rcases hs.started i t h with h1 | h1
    · exact Or.inl h1
    · exact Or.inr ((hw i (Worker.running t) rfl).mpr h1)
  · intro i h
    exact hs.sound i ((hw i Worker.crashed rfl).mp h)

theorem busy_set {l : List Worker} {i : Nat} {w0 : Worker} (w1 : Worker)
    (h : l[i]? = some w0) (h0 : w0.busy = false) (h1 : w1.busy = false) (j : Nat) (w : Worker)
    (hb : w.busy = true) : (l.set i w1)[j]? = some w ↔ l[j]? = some w := by
  rw [getElem?_set_of_some _ _ h]
  split_ifs with hij
  · subst hij
    rw [h]
    constructor
    · intro e
      rw [Option.some.inj e] at h1
      simp [h1] at hb
    · intro e
      rw [Option.some.inj e] at h0
      simp [h0] at hb
  · exact Iff.rfl

theorem ledger_enqueueCheck {s : Pool} (hs : Ledger s) (f : Outcome) :
    Ledger (s.enqueueCheck f).2 := by
  rcases Bool.eq_false_or_eq_true s.isActive with hA | hA
  · have hb := hs.bound
    rw [Pool.enqueueCheck_active f hA]
    refine ⟨?_, ?_, hs.conserve, hs.running, hs.started, hs.finished, hs.once, ?_, ?_, hs.sound⟩
    · have hp : ((s.inflight ++ [TaskUnit.mk s.channels.length f]) ++ s.accepted).Perm
          (TaskUnit.mk s.channels.length f :: (s.inflight ++ s.accepted)) := by
        simp only [List.append_assoc, List.singleton_append]
        exact List.perm_middle
      refine (hp.map TaskUnit.chan).nodup_iff.mpr ?_
      rw [List.map_cons, List.nodup_cons]
      refine ⟨?_, hs.ids⟩
      intro hmem
      obtain ⟨t, ht, hc⟩ := List.mem_map.mp hmem
      have := hb t ht
      simp only at hc
      omega
    · intro t ht
      simp only [List.length_append, List.length_singleton]
      simp only [List.append_assoc, List.mem_append, List.mem_singleton, List.mem_cons,
        List.not_mem_nil, or_false] at ht
      rcases ht with h1 | h1 | h1
      · exact Nat.lt_succ_of_lt (hb t (List.mem_append_left _ h1))
      · subst h1
        exact Nat.lt_succ_self _
      · exact Nat.lt_succ_of_lt (hb t (List.mem_append_right _ h1))
    · intro t ht
      exact getElem?_append_of_some _ (hs.ready t ht)
    · intro t ht hnf
      simp only [List.append_assoc, List.mem_append, List.mem_singleton, List.mem_cons,
        List.not_mem_nil, or_false] at ht
      rcases ht with h1 | h1 | h1
      · exact getElem?_append_of_some _ (hs.unready t (List.mem_append_left _ h1) hnf)
      · subst h1
        simp
      · exact getElem?_append_of_some _ (hs.unready t (List.mem_append_right _ h1) hnf)
  · rw [Pool.enqueueCheck_stopped f hA]
    exact hs

theorem ledger_enqueuePush {p : Policy} {s s' : Pool} {k : Nat} (hs : Ledger s)
    (h : s.enqueuePush p k = some s') : Ledger s' := by
  obtain ⟨t, ht, hm, rfl⟩ := Pool.enqueuePush_some h
  have hp : (s.inflight.eraseIdx k ++ (s.accepted ++ [t])).Perm (s.inflight ++ s.accepted) := by
    have h1 : (s.inflight ++ s.accepted).Perm (t :: s.inflight.eraseIdx k ++ s.accepted) :=
      List.Perm.append_right _ (perm_cons_eraseIdx ht)
    refine List.Perm.trans ?_ h1.symm
    simp only [List.cons_append]
    rw [← List.append_assoc]
    refine (List.perm_append_singleton t _).trans ?_
    exact List.Perm.refl _
  refine ⟨?_, ?_, ?_, hs.running, hs.started, hs.finished, hs.once, hs.ready, ?_, hs.sound⟩
  · exact (hp.map TaskUnit.chan).nodup_iff.mpr hs.ids
  · intro t' ht'
    exact hs.bound t' (hp.subset ht')
  · have h1 : (s.started.map Prod.snd ++ p.push s.mTasks t).Perm
        (s.started.map Prod.snd ++ (t :: s.mTasks)) :=
      List.Perm.append_left _ (p.push_perm _ _)
    refine h1.trans ?_
    refine List.perm_middle.trans ?_
    refine List.Perm.trans ?_ (List.perm_append_singleton t _).symm
    exact List.Perm.cons t hs.conserve
  · intro t' ht' hnf
    exact hs.unready t' (hp.subset ht') hnf

theorem ledger_take {s s' : Pool} {i : Nat} (hs : Ledger s)
    (h : s.take i = some s') : Ledger s' := by
  obtain ⟨hw, t, rest, hq, rfl⟩ := Pool.take_some h
  have hc := hs.conserve
  rw [hq] at hc
  have hnd : (s.started.map Prod.snd ++ t :: rest).Nodup := hc.nodup_iff.mpr hs.accepted_nodup
  have htn : t ∉ s.started.map Prod.snd := by
    intro hmem
    have := List.disjoint_of_nodup_append hnd hmem
    exact this (List.mem_cons_self _ _)
  refine ⟨hs.ids, hs.bound, ?_, ?_, ?_, ?_, hs.once, hs.ready, hs.unready, ?_⟩
  · simp only [List.map_append, List.map_cons, List.map_nil, List.append_assoc,
      List.singleton_append]
    exact hc
  · intro j t' hj
    simp only [getElem?_set_of_some _ _ hw] at hj
    split_ifs at hj with hij
    · subst hij
      simp only [Option.some.injEq, Worker.running.injEq] at hj
      subst hj
      exact ⟨by simp, fun hf => htn (hs.finished _ hf)⟩
    · have := hs.running j t' hj
      exact ⟨List.mem_append_left _ this.1, this.2⟩
  · intro j t' hj
    simp only [getElem?_set_of_some _ _ hw]
    simp only [List.mem_append, List.mem_singleton, Prod.mk.injEq] at hj
    rcases hj with hj | ⟨rfl, rfl⟩
    · rcases hs.started j t' hj with h1 | h1
      · exact Or.inl h1
      · split_ifs with hij
        · subst hij
          rw [hw] at h1
          simp at h1
        · exact Or.inr h1
    · simp
  · intro t' ht'
    have := hs.finished t' ht'
    simp only [List.map_append, List.mem_append]
    exact Or.inl this
  · intro j hj
    simp only [getElem?_set_of_some _ _ hw] at hj
    split_ifs at hj with hij
    · simp at hj
    · exact hs.sound j hj

theorem ledger_finish {s s' : Pool} {i : Nat} (hs : Ledger s)
    (h : s.finish i = some s') : Ledger s' := by
  obtain ⟨t, hw, hcase⟩ := Pool.finish_some h
  obtain ⟨hst, hnf⟩ := hs.running i t hw
  have hacc : t ∈ s.accepted := hs.mem_accepted_of_started hst
  have hch : s.channels[t.chan]? = some none :=
    hs.unready t (List.mem_append_right _ hacc) hnf
  rcases hcase with ⟨-, rfl⟩ | ⟨hne, -⟩
  · have hlt : t.chan < s.channels.length := hs.bound t (List.mem_append_right _ hacc)
    refine ⟨hs.ids, ?_, hs.conserve, ?_, ?_, ?_, ?_, ?_, ?_, ?_⟩
    · intro t' ht'
      simp only [List.length_set]
      exact hs.bound t' ht'
    · intro j t' hj
      simp only [getElem?_set_of_some _ _ hw] at hj
      split_ifs at hj with hij
      · simp at hj
      · obtain ⟨h1, h2⟩ := hs.running j t' hj
        refine ⟨h1, ?_⟩
        simp only [List.mem_append, List.mem_singleton, not_or]
        refine ⟨h2, ?_⟩
        rintro rfl
        exact hij (fst_unique_of_nodup_snd hs.started_nodup hst h1)
    · intro j t' hj
      simp only [getElem?_set_of_some _ _ hw]
      rcases hs.started j t' hj with h1 | h1
      · exact Or.inl (List.mem_append_left _ h1)
      · split_ifs with hij
        · subst hij
          rw [hw] at h1
          simp only [Option.some.injEq, Worker.running.injEq] at h1
          subst h1
          exact Or.inl (by simp)
        · exact Or.inr h1
    · intro t' ht'
      simp only [List.mem_append, List.mem_singleton] at ht'
      rcases ht' with h1 | rfl
      · exact hs.finished t' h1
      · exact List.mem_map_of_mem Prod.snd hst
    · exact List.Nodup.append hs.once (List.nodup_singleton t)
        (by simpa [List.disjoint_singleton] using hnf)
    · intro t' ht'
      simp only [List.mem_append, List.mem_singleton] at ht'
      rcases ht' with h1 | rfl
      · have h2 := hs.ready t' h1
        rw [List.getElem?_set_ne]
        · exact h2
        · intro he
          rw [← he, hch] at h2
          simp at h2
      · simp [List.getElem?_set_self hlt]
    · intro t' ht' hnf'
      simp only [List.mem_append, List.mem_singleton, not_or] at hnf'
      rw [List.getElem?_set_ne]
      · exact hs.unready t' ht' hnf'.1
      · intro he
        have := List.inj_on_of_nodup_map hs.ids (List.mem_append_right _ hacc) ht' he
        exact hnf'.2 this.symm
    · intro j hj
      simp only [getElem?_set_of_some _ _ hw] at hj
      split_ifs at hj with hij
      · simp at hj
      · exact hs.sound j hj
  · exact absurd hch hne

/-- Every action keeps `Ledger`. -/
theorem ledger_step {p : Policy} {s s' : Pool} {a : Action} (hs : Ledger s)
    (h : ThreadPool.step p s a = some s') : Ledger s' := by
  cases a with
  | enqueueCheck f =>
    simp only [ThreadPool.step, Option.some.injEq] at h
    subst h
    exact ledger_enqueueCheck hs f
  | enqueuePush k => exact ledger_enqueuePush hs h
  | enqueueNotify w =>
    rcases Pool.enqueueNotify_some h with ⟨i, -, hw, rfl⟩ | ⟨-, rfl⟩
    · exact ledger_frame hs _ _ _ _ _ (busy_set _ hw rfl rfl)
    · exact ledger_frame hs _ _ _ _ _ (fun _ _ _ => Iff.rfl)
  | lock i =>
    obtain ⟨hw, hm, rfl⟩ := Pool.lock_some h
    exact ledger_frame hs _ _ _ _ _ (busy_set _ hw rfl rfl)
  | loopTest i =>
    obtain ⟨hw, ⟨hA, hq, rfl⟩ | ⟨hb, rfl⟩⟩ := Pool.loopTest_some h
    · exact ledger_frame hs _ _ _ _ _ (busy_set _ hw rfl rfl)
    · exact ledger_frame hs _ _ _ _ _ (busy_set _ hw rfl rfl)
  | wait i =>
    obtain ⟨hw, rfl⟩ := Pool.wait_some h
    exact ledger_frame hs _ _ _ _ _ (busy_set _ hw rfl rfl)
  | wake i =>
    obtain ⟨hw, rfl⟩ := Pool.wake_some h
    exact ledger_frame hs _ _ _ _ _ (busy_set _ hw rfl rfl)
  | relock i =>
    obtain ⟨hw, hm, rfl⟩ := Pool.relock_some h
    exact ledger_frame hs _ _ _ _ _ (busy_set _ hw rfl rfl)
  | exitTest i =>
    obtain ⟨hw, ⟨hA, hq, rfl⟩ | ⟨hb, rfl⟩⟩ := Pool.exitTest_some h
    · exact ledger_frame hs _ _ _ _ _ (busy_set _ hw rfl rfl)
    · exact ledger_frame hs _ _ _ _ _ (busy_set _ hw rfl rfl)
  | take i => exact ledger_take hs h
  | finish i => exact ledger_finish hs h
  | dtorStore =>
    obtain ⟨hd, rfl⟩ := Pool.dtorStore_some h
    exact ledger_frame hs _ _ _ _ _ (fun _ _ _ => Iff.rfl)
  | dtorNotifyAll =>
    obtain ⟨hd, rfl⟩ := Pool.dtorNotifyAll_some h
    refine ledger_frame hs _ _ _ _ _ (fun j w hb => ?_)
    simp only [List.getElem?_map, Option.map_eq_some']
    constructor
    · rintro ⟨w0, hw0, hf⟩
      split_ifs at hf with hww
      · subst hf
        simp [Worker.busy] at hb
      · subst hf
        exact hw0
    · intro hj
      refine ⟨w, hj, ?_⟩
      split_ifs with hww
      · subst hww
        simp [Worker.busy] at hb
      · rfl
  | dtorJoin =>
    obtain ⟨hd, hall, rfl⟩ := Pool.dtorJoin_some h
    exact ledger_frame hs _ _ _ _ _ (fun _ _ _ => Iff.rfl)

/-! ## Interleavings -/

theorem run_invariant {P : Pool → Prop} {p : Policy}
    (hstep : ∀ s a s', P s → step p s a = some s' → P s') :
    ∀ (acts : List Action) (s s' : Pool), P s → run p s acts = some s' → P s'
  | [], s, s', hs, h => by
    simp only [run, Option.some.injEq] at h
    subst h
    exact hs
  | a :: as, s, s', hs, h => by
    simp only [run, Option.bind_eq_some] at h
    obtain ⟨s1, h1, h2⟩ := h
    exact run_invariant hstep as s1 s' (hstep s a s1 hs h1) h2

theorem run_append (p : Policy) (s : Pool) (as bs : List Action) :
    run p s (as ++ bs) = (run p s as).bind (fun s1 => run p s1 bs) := by
  induction as generalizing s with
  | nil => simp [run]
  | cons a as ih =>
    simp only [List.cons_append, run]
    cases step p s a with
    | none => simp
    | some s1 => simpa using ih s1

theorem lockInv_run {p : Policy} {s s' : Pool} {acts : List Action} (hs : LockInv s)
    (h : ThreadPool.run p s acts = some s') : LockInv s' :=
  run_invariant (fun _ _ _ h1 h2 => lockInv_step h1 h2) acts s s' hs h

theorem ledger_run {p : Policy} {s s' : Pool} {acts : List Action} (hs : Ledger s)
    (h : ThreadPool.run p s acts = some s') : Ledger s' :=
  run_invariant (fun _ _ _ h1 h2 => ledger_step h1 h2) acts s s' hs h

/-- No action starts or ends a thread: `mWorkers` keeps its length. -/
theorem step_length {p : Policy} {s s' : Pool} {a : Action}
    (h : step p s a = some s') : s'.mWorkers.length = s.mWorkers.length := by
  cases a with
  | enqueueCheck f =>
    simp only [step, Pool.enqueueCheck, Option.some.injEq] at h
    subst h
    split <;> rfl
  | enqueuePush k =>
    obtain ⟨t, ht, hm, rfl⟩ := Pool.enqueuePush_some h
    rfl
  | enqueueNotify w =>
    rcases Pool.enqueueNotify_some h with ⟨i, -, hw, rfl⟩ | ⟨-, rfl⟩ <;> simp
  | lock i =>
    obtain ⟨hw, hm, rfl⟩ := Pool.lock_some h
    simp
  | loopTest i =>
    obtain ⟨hw, ⟨hA, hq, rfl⟩ | ⟨hb, rfl⟩⟩ := Pool.loopTest_some h <;> simp
  | wait i =>
    obtain ⟨hw, rfl⟩ := Pool.wait_some h
    simp
  | wake i =>
    obtain ⟨hw, rfl⟩ := Pool.wake_some h
    simp
  | relock i =>
    obtain ⟨hw, hm, rfl⟩ := Pool.relock_some h
    simp
  | exitTest i =>
    obtain ⟨hw, ⟨hA, hq, rfl⟩ | ⟨hb, rfl⟩⟩ := Pool.exitTest_some h <;> simp
  | take i =>
    obtain ⟨hw, t, rest, hq, rfl⟩ := Pool.take_some h
    simp
  | finish i =>
    obtain ⟨t, hw, ⟨hc0, rfl⟩ | ⟨hc0, rfl⟩⟩ := Pool.finish_some h <;> simp
  | dtorStore =>
    obtain ⟨hd, rfl⟩ := Pool.dtorStore_some h
    rfl
  | dtorNotifyAll =>
    obtain ⟨hd, rfl⟩ := Pool.dtorNotifyAll_some h
    simp
  | dtorJoin =>
    obtain ⟨hd, hall, rfl⟩ := Pool.dtorJoin_some h
    rfl

theorem run_length {p : Policy} {s s' : Pool} {acts : List Action}
    (h : run p s acts = some s') : s'.mWorkers.length = s.mWorkers.length :=
  run_invariant (P := fun x => x.mWorkers.length = s.mWorkers.length)
    (fun _ _ _ h1 h2 => (step_length h2).trans h1) acts s s' rfl h

/-- No action sets the flag: it is what it was, or line 106 has cleared it. -/
theorem step_isActive {p : Policy} {s s' : Pool} {a : Action}
    (h : step p s a = some s') :
    s'.isActive = s.isActive ∨ (a = Action.dtorStore ∧ s'.isActive = false) := by
  cases a with
  | enqueueCheck f =>
    simp only [step, Pool.enqueueCheck, Option.some.injEq] at h
    subst h
    split <;> exact Or.inl rfl
  | enqueuePush k =>
    obtain ⟨t, ht, hm, rfl⟩ := Pool.enqueuePush_some h
    exact Or.inl rfl
  | enqueueNotify w =>
    rcases Pool.enqueueNotify_some h with ⟨i, -, hw, rfl⟩ | ⟨-, rfl⟩ <;> exact Or.inl rfl
  | lock i =>
    obtain ⟨hw, hm, rfl⟩ := Pool.lock_some h
    exact Or.inl rfl
  | loopTest i =>
    obtain ⟨hw, ⟨hA, hq, rfl⟩ | ⟨hb, rfl⟩⟩ := Pool.loopTest_some h <;> exact Or.inl rfl
  | wait i =>
    obtain ⟨hw, rfl⟩ := Pool.wait_some h
    exact Or.inl rfl
  | wake i =>
    obtain ⟨hw, rfl⟩ := Pool.wake_some h
    exact Or.inl rfl
  | relock i =>
    obtain ⟨hw, hm, rfl⟩ := Pool.relock_some h
    exact Or.inl rfl
  | exitTest i =>
    obtain ⟨hw, ⟨hA, hq, rfl⟩ | ⟨hb, rfl⟩⟩ := Pool.exitTest_some h <;> exact Or.inl rfl
  | take i =>
    obtain ⟨hw, t, rest, hq, rfl⟩ := Pool.take_some h
    exact Or.inl rfl
  | finish i =>
    obtain ⟨t, hw, ⟨hc0, rfl⟩ | ⟨hc0, rfl⟩⟩ := Pool.finish_some h <;> exact Or.inl rfl
  | dtorStore =>
    obtain ⟨hd, rfl⟩ := Pool.dtorStore_some h
    exact Or.inr ⟨rfl, rfl⟩
  | dtorNotifyAll =>
    obtain ⟨hd, rfl⟩ := Pool.dtorNotifyAll_some h
    exact Or.inl rfl
  | dtorJoin =>
    obtain ⟨hd, hall, rfl⟩ := Pool.dtorJoin_some h
    exact Or.inl rfl

theorem step_stopped {p : Policy} {s s' : Pool} {a : Action}
    (h : step p s a = some s') (hs : s.isActive = false) : s'.isActive = false := by
  rcases step_isActive h with h1 | ⟨-, h1⟩
  · rw [h1, hs]
  · exact h1

theorem run_stopped {p : Policy} {s s' : Pool} {acts : List Action}
    (h : run p s acts = some s') (hs : s.isActive = false) : s'.isActive = false :=
  run_invariant (P := fun x => x.isActive = false)
    (fun _ _ _ h1 h2 => step_stopped h2 h1) acts s s' hs h

/-! ## The flag, the destructor and the end of a worker -/

theorem terminated_set {l : List Worker} {i : Nat} {w0 : Worker} (w1 : Worker)
    (h : l[i]? = some w0) (h1 : w1 ≠ Worker.terminated) (j : Nat)
    (hj : (l.set i w1)[j]? = some Worker.terminated) : l[j]? = some Worker.terminated := by
  rw [getElem?_set_of_some _ _ h] at hj
  split_ifs at hj with hij
  · exact absurd (Option.some.inj hj) h1
  · exact hj

theorem lifeInv_init (b : Bool) (n : Nat) : LifeInv (Pool.new b n) := by
  refine ⟨?_, by simp [Pool.new], by simp [Pool.new]⟩
  intro i h
  simp only [Pool.new, List.getElem?_replicate] at h
  split_ifs at h <;> simp at h

/-- A change of the workers that lets none of them return, and of the fields the
invariant does not read, keeps `LifeInv`. -/
theorem lifeInv_frame {s : Pool} (hs : LifeInv s) (ws : List Worker) (m : Option Nat)
    (k : Nat) (q : List TaskUnit) (cs : List (Option Outcome)) (st : List (Nat × TaskUnit))
    (fin : List TaskUnit)
    (hw : ∀ j : Nat, ws[j]? = some Worker.terminated → s.mWorkers[j]? = some Worker.terminated) :
    LifeInv { s with mTasks := q, queue_mutex := m, mWorkers := ws, channels := cs,
                     notifying := k, started := st, finished := fin } :=
  ⟨fun i h => hs.term i (hw i h), hs.dtor, hs.fresh⟩

/-- Every action keeps `LifeInv`. -/
theorem lifeInv_step {p : Policy} {s s' : Pool} {a : Action} (hs : LifeInv s)
    (h : ThreadPool.step p s a = some s') : LifeInv s' := by
  cases a with
  | enqueueCheck f =>
    simp only [ThreadPool.step, Option.some.injEq] at h
    subst h
    rcases Bool.eq_false_or_eq_true s.isActive with hA | hA
    · rw [Pool.enqueueCheck_active f hA]
      refine ⟨hs.term, hs.dtor, fun _ hb => ?_⟩
      simp only at hb
      rw [hA] at hb
      exact absurd hb (by simp)
    · rw [Pool.enqueueCheck_stopped f hA]
      exact hs
  | enqueuePush k =>
    obtain ⟨t, ht, hm, rfl⟩ := Pool.enqueuePush_some h
    refine ⟨hs.term, hs.dtor, fun hd hb => ?_⟩
    have := (hs.fresh hd hb).1
    rw [this] at ht
    simp at ht
  | enqueueNotify w =>
    rcases Pool.enqueueNotify_some h with ⟨i, -, hw, rfl⟩ | ⟨-, rfl⟩
    · exact lifeInv_frame hs _ _ _ _ _ _ _ (terminated_set _ hw (by simp))
    · exact lifeInv_frame hs _ _ _ _ _ _ _ (fun _ hj => hj)
  | lock i =>
    obtain ⟨hw, hm, rfl⟩ := Pool.lock_some h
    exact lifeInv_frame hs _ _ _ _ _ _ _ (terminated_set _ hw (by simp))
  | loopTest i =>
    obtain ⟨hw, ⟨hA, hq, rfl⟩ | ⟨hb, rfl⟩⟩ := Pool.loopTest_some h
    · exact lifeInv_frame hs _ _ _ _ _ _ _ (terminated_set _ hw (by simp))
    · exact lifeInv_frame hs _ _ _ _ _ _ _ (terminated_set _ hw (by simp))
  | wait i =>
    obtain ⟨hw, rfl⟩ := Pool.wait_some h
    exact lifeInv_frame hs _ _ _ _ _ _ _ (terminated_set _ hw (by simp))
  | wake i =>
    obtain ⟨hw, rfl⟩ := Pool.wake_some h
    exact lifeInv_frame hs _ _ _ _ _ _ _ (terminated_set _ hw (by simp))
  | relock i =>
    obtain ⟨hw, hm, rfl⟩ := Pool.relock_some h
    exact lifeInv_frame hs _ _ _ _ _ _ _ (terminated_set _ hw (by simp))
  | exitTest i =>
    obtain ⟨hw, ⟨hA, hq, rfl⟩ | ⟨hb, rfl⟩⟩ := Pool.exitTest_some h
    · refine ⟨fun _ _ => hA, hs.dtor, hs.fresh⟩
    · exact lifeInv_frame hs _ _ _ _ _ _ _ (terminated_set _ hw (by simp))
  | take i =>
    obtain ⟨hw, t, rest, hq, rfl⟩ := Pool.take_some h
    exact lifeInv_frame hs _ _ _ _ _ _ _ (terminated_set _ hw (by simp))
  | finish i =>
    obtain ⟨t, hw, ⟨hc0, rfl⟩ | ⟨hc0, rfl⟩⟩ := Pool.finish_some h
    · exact lifeInv_frame hs _ _ _ _ _ _ _ (terminated_set _ hw (by simp))
    · exact lifeInv_frame hs _ _ _ _ _ _ _ (terminated_set _ hw (by simp))
  | dtorStore =>
    obtain ⟨hd, rfl⟩ := Pool.dtorStore_some h
    exact ⟨fun _ _ => rfl, fun _ => rfl, fun hd' => by simp at hd'⟩
  | dtorNotifyAll =>
    obtain ⟨hd, rfl⟩ := Pool.dtorNotifyAll_some h
    refine ⟨fun j hj => ?_, fun _ => hs.dtor (by simp [hd]), fun hd' => by simp at hd'⟩
    simp only [List.getElem?_map, Option.map_eq_some'] at hj
    obtain ⟨w0, hw0, hf⟩ := hj
    split_ifs at hf with hww
    subst hf
    exact hs.term j hw0
  | dtorJoin =>
    obtain ⟨hd, hall, rfl⟩ := Pool.dtorJoin_some h
    exact ⟨hs.term, fun _ => hs.dtor (by simp [hd]), fun hd' => by simp at hd'⟩

theorem lifeInv_run {p : Policy} {s s' : Pool} {acts : List Action} (hs : LifeInv s)
    (h : ThreadPool.run p s acts = some s') : LifeInv s' :=
  run_invariant (fun _ _ _ h1 h2 => lifeInv_step h1 h2) acts s s' hs h

/-! ## Draining -/

/-- A change of the workers that lets none of them return, and of the fields the
invariant does not read, keeps `Draining`. -/
theorem draining_frame {A : List TaskUnit} {s : Pool} (hs : Draining A s) (ws : List Worker)
    (m : Option Nat) (b : Bool) (hb : b = false)
    (k : Nat) (cs : List (Option Outcome)) (st : List (Nat × TaskUnit))
    (fin : List TaskUnit) (d : Dtor)
    (hw : ∀ j : Nat, ws[j]? = some Worker.terminated → s.mWorkers[j]? = some Worker.terminated) :
    Draining A { s with isActive := b, queue_mutex := m, mWorkers := ws, channels := cs,
                        notifying := k, started := st, finished := fin, dtor := d } :=
  ⟨hb, hs.grows, fun ha ⟨i, hi⟩ => hs.empty ha ⟨i, hw i hi⟩⟩

/-- Every action keeps `Draining`. -/
theorem draining_step {A : List TaskUnit} {p : Policy} {s s' : Pool} {a : Action}
    (hs : Draining A s) (h : ThreadPool.step p s a = some s') : Draining A s' := by
  cases a with
  | enqueueCheck f =>
    simp only [ThreadPool.step, Option.some.injEq] at h
    subst h
    rw [Pool.enqueueCheck_stopped f hs.stopped]
    exact hs
  | enqueuePush k =>
    obtain ⟨t, ht, hm, rfl⟩ := Pool.enqueuePush_some h
    obtain ⟨new, hnew⟩ := hs.grows
    refine ⟨hs.stopped, ⟨new ++ [t], ?_⟩, fun ha => ?_⟩
    · show s.accepted ++ [t] = A ++ (new ++ [t])
      rw [hnew, List.append_assoc]
    · have hlen := congrArg List.length ha
      simp only [hnew, List.length_append, List.length_singleton] at hlen
      omega
  | enqueueNotify w =>
    rcases Pool.enqueueNotify_some h with ⟨i, -, hw, rfl⟩ | ⟨-, rfl⟩
    · exact draining_frame hs _ _ _ hs.stopped _ _ _ _ _ (terminated_set _ hw (by simp))
    · exact draining_frame hs _ _ _ hs.stopped _ _ _ _ _ (fun _ hj => hj)
  | lock i =>
    obtain ⟨hw, hm, rfl⟩ := Pool.lock_some h
    exact draining_frame hs _ _ _ hs.stopped _ _ _ _ _ (terminated_set _ hw (by simp))
  | loopTest i =>
    obtain ⟨hw, ⟨hA, hq, rfl⟩ | ⟨hb, rfl⟩⟩ := Pool.loopTest_some h
    · exact draining_frame hs _ _ _ hs.stopped _ _ _ _ _ (terminated_set _ hw (by simp))
    · exact draining_frame hs _ _ _ hs.stopped _ _ _ _ _ (terminated_set _ hw (by simp))
  | wait i =>
    obtain ⟨hw, rfl⟩ := Pool.wait_some h
    exact draining_frame hs _ _ _ hs.stopped _ _ _ _ _ (terminated_set _ hw (by simp))
  | wake i =>
    obtain ⟨hw, rfl⟩ := Pool.wake_some h
    exact draining_frame hs _ _ _ hs.stopped _ _ _ _ _ (terminated_set _ hw (by simp))
  | relock i =>
    obtain ⟨hw, hm, rfl⟩ := Pool.relock_some h
    exact draining_frame hs _ _ _ hs.stopped _ _ _ _ _ (terminated_set _ hw (by simp))
  | exitTest i =>
    obtain ⟨hw, ⟨hA, hq, rfl⟩ | ⟨hb, rfl⟩⟩ := Pool.exitTest_some h
    · exact ⟨hs.stopped, hs.grows, fun _ _ => hq⟩
    · exact draining_frame hs _ _ _ hs.stopped _ _ _ _ _ (terminated_set _ hw (by simp))
  | take i =>
    obtain ⟨hw, t, rest, hq, rfl⟩ := Pool.take_some h
    refine ⟨hs.stopped, hs.grows, fun ha ⟨j, hj⟩ => ?_⟩
    have := hs.empty ha ⟨j, terminated_set _ hw (by simp) j hj⟩
    rw [this] at hq
    simp at hq
  | finish i =>
    obtain ⟨t, hw, ⟨hc0, rfl⟩ | ⟨hc0, rfl⟩⟩ := Pool.finish_some h
    · exact draining_frame hs _ _ _ hs.stopped _ _ _ _ _ (terminated_set _ hw (by simp))
    · exact draining_frame hs _ _ _ hs.stopped _ _ _ _ _ (terminated_set _ hw (by simp))
  | dtorStore =>
    obtain ⟨hd, rfl⟩ := Pool.dtorStore_some h
    exact draining_frame hs _ _ _ rfl _ _ _ _ _ (fun _ hj => hj)
  | dtorNotifyAll =>
    obtain ⟨hd, rfl⟩ := Pool.dtorNotifyAll_some h
    refine draining_frame hs _ _ _ hs.stopped _ _ _ _ _ (fun j hj => ?_)
    simp only [List.getElem?_map, Option.map_eq_some'] at hj
    obtain ⟨w0, hw0, hf⟩ := hj
    split_ifs at hf with hww
    subst hf
    exact hw0
  | dtorJoin =>
    obtain ⟨hd, hall, rfl⟩ := Pool.dtorJoin_some h
    exact draining_frame hs _ _ _ hs.stopped _ _ _ _ _ (fun _ hj => hj)

theorem draining_run {A : List TaskUnit} {p : Policy} {s s' : Pool} {acts : List Action}
    (hs : Draining A s) (h : ThreadPool.run p s acts = some s') : Draining A s' :=
  run_invariant (fun _ _ _ h1 h2 => draining_step h1 h2) acts s s' hs h

/-- A change of the fields the invariant does not read keeps `Quiet`. -/
theorem quiet_frame {A : List TaskUnit} {s : Pool} (hs : Quiet A s) (q : List TaskUnit)
    (ws : List Worker) (m : Option Nat) (b : Bool) (hb : b = false)
    (k : Nat) (cs : List (Option Outcome)) (st : List (Nat × TaskUnit))
    (fin : List TaskUnit) (d : Dtor) :
    Quiet A { s with isActive := b, mTasks := q, queue_mutex := m, mWorkers := ws,
                     channels := cs, notifying := k, started := st, finished := fin,
                     dtor := d } :=
  ⟨hb, hs.quiet, hs.same⟩

/-- Every action keeps `Quiet`. -/
theorem quiet_step {A : List TaskUnit} {p : Policy} {s s' : Pool} {a : Action}
    (hs : Quiet A s) (h : ThreadPool.step p s a = some s') : Quiet A s' := by
  cases a with
  | enqueueCheck f =>
    simp only [ThreadPool.step, Option.some.injEq] at h
    subst h
    rw [Pool.enqueueCheck_stopped f hs.stopped]
    exact hs
  | enqueuePush k =>
    obtain ⟨t, ht, hm, rfl⟩ := Pool.enqueuePush_some h
    rw [hs.quiet] at ht
    simp at ht
  | enqueueNotify w =>
    rcases Pool.enqueueNotify_some h with ⟨i, -, hw, rfl⟩ | ⟨-, rfl⟩
    · exact quiet_frame hs _ _ _ _ hs.stopped _ _ _ _ _
    · exact quiet_frame hs _ _ _ _ hs.stopped _ _ _ _ _
  | lock i =>
    obtain ⟨hw, hm, rfl⟩ := Pool.lock_some h
    exact quiet_frame hs _ _ _ _ hs.stopped _ _ _ _ _
  | loopTest i =>
    obtain ⟨hw, ⟨hA, hq, rfl⟩ | ⟨hb, rfl⟩⟩ := Pool.loopTest_some h
    · exact quiet_frame hs _ _ _ _ hs.stopped _ _ _ _ _
    · exact quiet_frame hs _ _ _ _ hs.stopped _ _ _ _ _
  | wait i =>
    obtain ⟨hw, rfl⟩ := Pool.wait_some h
    exact quiet_frame hs _ _ _ _ hs.stopped _ _ _ _ _
  | wake i =>
    obtain ⟨hw, rfl⟩ := Pool.wake_some h
    exact quiet_frame hs _ _ _ _ hs.stopped _ _ _ _ _
  | relock i =>
    obtain ⟨hw, hm, rfl⟩ := Pool.relock_some h
    exact quiet_frame hs _ _ _ _ hs.stopped _ _ _ _ _
  | exitTest i =>
    obtain ⟨hw, ⟨hA, hq, rfl⟩ | ⟨hb, rfl⟩⟩ := Pool.exitTest_some h
    · exact quiet_frame hs _ _ _ _ hs.stopped _ _ _ _ _
    · exact quiet_frame hs _ _ _ _ hs.stopped _ _ _ _ _
  | take i =>
    obtain ⟨hw, t, rest, hq, rfl⟩ := Pool.take_some h
    exact quiet_frame hs _ _ _ _ hs.stopped _ _ _ _ _
  | finish i =>
    obtain ⟨t, hw, ⟨hc0, rfl⟩ | ⟨hc0, rfl⟩⟩ := Pool.finish_some h
    · exact quiet_frame hs _ _ _ _ hs.stopped _ _ _ _ _
    · exact quiet_frame hs _ _ _ _ hs.stopped _ _ _ _ _
  | dtorStore =>
    obtain ⟨hd, rfl⟩ := Pool.dtorStore_some h
    exact quiet_frame hs _ _ _ _ rfl _ _ _ _ _
  | dtorNotifyAll =>
    obtain ⟨hd, rfl⟩ := Pool.dtorNotifyAll_some h
    exact quiet_frame hs _ _ _ _ hs.stopped _ _ _ _ _
  | dtorJoin =>
    obtain ⟨hd, hall, rfl⟩ := Pool.dtorJoin_some h
    exact quiet_frame hs _ _ _ _ hs.stopped _ _ _ _ _

/-- When no call of `enqueue` is in flight as the destructor begins, no task is
accepted from then on. -/
theorem quiet_shutdown_accepts_nothing (p : Policy) (post : List Action) (s s' : Pool)
    (hquiet : s.inflight = [])
    (hpost : run p s (Action.dtorStore :: post) = some s') : s'.accepted = s.accepted := by
  simp only [run, Option.bind_eq_some] at hpost
  obtain ⟨s1, hs1, hpost1⟩ := hpost
  obtain ⟨-, rfl⟩ := Pool.dtorStore_some hs1
  have hd : Quiet s.accepted { s with isActive := false, dtor := Dtor.stored } :=
    ⟨rfl, hquiet, rfl⟩
  exact (run_invariant (fun _ _ _ h1 h2 => quiet_step h1 h2) post _ s' hd hpost1).same

/-! ## The order in which queued tasks leave -/

theorem filter_push (p : Policy) (L q : List TaskUnit) (t : TaskUnit) (h : t ∉ L) :
    (p.push q t).filter (fun x => decide (x ∈ L)) = q.filter (fun x => decide (x ∈ L)) := by
  cases p <;> simp [Policy.push, List.filter_cons, h]

theorem take_drop_step {α : Type} :
    ∀ (L : List α) (k : Nat) (t : α) (r : List α), L.drop k = t :: r →
      L.take (k + 1) = L.take k ++ [t] ∧ L.drop (k + 1) = r
  | [], k, t, r, h => by simp at h
  | a :: L, 0, t, r, h => by
    simp only [List.drop_zero, List.cons.injEq] at h
    obtain ⟨rfl, rfl⟩ := h
    simp
  | a :: L, k + 1, t, r, h => by
    simp only [List.drop_succ_cons] at h
    obtain ⟨h1, h2⟩ := take_drop_step L k t r h
    simp [List.take_succ_cons, h1, h2]

/-- A change of the fields the invariant does not read keeps `Leaving`. -/
theorem leaving_frame {L : List TaskUnit} {base : Nat} {s : Pool} (hs : Leaving L base s)
    (ws : List Worker) (m : Option Nat) (b : Bool) (k : Nat) (cs : List (Option Outcome))
    (hcs : cs.length = s.channels.length) (fin : List TaskUnit) (d : Dtor) :
    Leaving L base { s with isActive := b, queue_mutex := m, mWorkers := ws, channels := cs,
                            notifying := k, finished := fin, dtor := d } :=
  ⟨hs.base_le, fun t ht => by simpa [hcs] using hs.bound t ht, hs.apart, hs.split⟩

/-- Every action keeps `Leaving`. -/
theorem leaving_step {L : List TaskUnit} {base : Nat} {p : Policy} {s s' : Pool} {a : Action}
    (hs : Leaving L base s) (h : ThreadPool.step p s a = some s') : Leaving L base s' := by
  cases a with
  | enqueueCheck f =>
    simp only [ThreadPool.step, Option.some.injEq] at h
    subst h
    rcases Bool.eq_false_or_eq_true s.isActive with hA | hA
    · rw [Pool.enqueueCheck_active f hA]
      refine ⟨hs.base_le, fun t ht => ?_, fun t ht => ?_, hs.split⟩
      · simp only [List.length_append, List.length_singleton]
        exact Nat.lt_succ_of_lt (hs.bound t ht)
      · simp only [List.mem_append, List.mem_singleton] at ht
        rcases ht with h1 | rfl
        · exact hs.apart t h1
        · intro hmem
          have := hs.bound _ hmem
          simp at this
    · rw [Pool.enqueueCheck_stopped f hA]
      exact hs
  | enqueuePush k =>
    obtain ⟨t, ht, hm, rfl⟩ := Pool.enqueuePush_some h
    have htL : t ∉ L := hs.apart t (List.getElem?_mem ht)
    refine ⟨hs.base_le, hs.bound, fun t' ht' => ?_, ?_⟩
    · exact hs.apart t' (List.mem_of_mem_eraseIdx ht')
    · obtain ⟨k0, h1, h2⟩ := hs.split
      exact ⟨k0, h1, by simpa [filter_push p L _ t htL] using h2⟩
  | enqueueNotify w =>
    rcases Pool.enqueueNotify_some h with ⟨i, -, hw, rfl⟩ | ⟨-, rfl⟩
    · exact leaving_frame hs _ _ _ _ _ rfl _ _
    · exact leaving_frame hs _ _ _ _ _ rfl _ _
  | lock i =>
    obtain ⟨hw, hm, rfl⟩ := Pool.lock_some h
    exact leaving_frame hs _ _ _ _ _ rfl _ _
  | loopTest i =>
    obtain ⟨hw, ⟨hA, hq, rfl⟩ | ⟨hb, rfl⟩⟩ := Pool.loopTest_some h
    · exact leaving_frame hs _ _ _ _ _ rfl _ _
    · exact leaving_frame hs _ _ _ _ _ rfl _ _
  | wait i =>
    obtain ⟨hw, rfl⟩ := Pool.wait_some h
    exact leaving_frame hs _ _ _ _ _ rfl _ _
  | wake i =>
    obtain ⟨hw, rfl⟩ := Pool.wake_some h
    exact leaving_frame hs _ _ _ _ _ rfl _ _
  | relock i =>
    obtain ⟨hw, hm, rfl⟩ := Pool.relock_some h
    exact leaving_frame hs _ _ _ _ _ rfl _ _
  | exitTest i =>
    obtain ⟨hw, ⟨hA, hq, rfl⟩ | ⟨hb, rfl⟩⟩ := Pool.exitTest_some h
    · exact leaving_frame hs _ _ _ _ _ rfl _ _
    · exact leaving_frame hs _ _ _ _ _ rfl _ _
  | take i =>
    obtain ⟨hw, t, rest, hq, rfl⟩ := Pool.take_some h
    obtain ⟨k0, h1, h2⟩ := hs.split
    rw [hq] at h2
    refine ⟨?_, hs.bound, hs.apart, ?_⟩
    · simp only [List.length_append, List.length_singleton]
      exact Nat.le_succ_of_le hs.base_le
    · simp only [List.drop_append_of_le_length hs.base_le, List.map_append, List.map_cons,
        List.map_nil, List.filter_append]
      by_cases htL : t ∈ L
      · have h3 : L.drop k0 = t :: rest.filter (fun x => decide (x ∈ L)) := by
          rw [← h2]
          simp [List.filter_cons, htL]
        obtain ⟨h4, h5⟩ := take_drop_step L k0 t _ h3
        refine ⟨k0 + 1, ?_, h5.symm⟩
        rw [h4, h1]
        simp [List.filter_cons, htL]
      · refine ⟨k0, ?_, ?_⟩
        · rw [h1]
          simp [List.filter_cons, htL]
        · rw [← h2]
          simp [List.filter_cons, htL]
  | finish i =>
    obtain ⟨t, hw, ⟨hc0, rfl⟩ | ⟨hc0, rfl⟩⟩ := Pool.finish_some h
    · exact leaving_frame hs _ _ _ _ _ (by simp) _ _
    · exact leaving_frame hs _ _ _ _ _ rfl _ _
  | dtorStore =>
    obtain ⟨hd, rfl⟩ := Pool.dtorStore_some h
    exact leaving_frame hs _ _ _ _ _ rfl _ _
  | dtorNotifyAll =>
    obtain ⟨hd, rfl⟩ := Pool.dtorNotifyAll_some h
    exact leaving_frame hs _ _ _ _ _ rfl _ _
  | dtorJoin =>
    obtain ⟨hd, hall, rfl⟩ := Pool.dtorJoin_some h
    exact leaving_frame hs _ _ _ _ _ rfl _ _

theorem leaving_run {L : List TaskUnit} {base : Nat} {p : Policy} {s s' : Pool}
    {acts : List Action} (hs : Leaving L base s)
    (h : ThreadPool.run p s acts = some s') : Leaving L base s' :=
  run_invariant (fun _ _ _ h1 h2 => leaving_step h1 h2) acts s s' hs h

/-- A state whose container holds the tasks of `L` in the order of `L`, among others,
starts the invariant: none of them has left. -/
theorem leaving_start {L : List TaskUnit} {s : Pool} (hs : Ledger s)
    (hsub : ∀ t ∈ L, t ∈ s.mTasks)
    (hL : s.mTasks.filter (fun x => decide (x ∈ L)) = L) : Leaving L s.started.length s := by
  refine ⟨Nat.le_refl _, fun t ht => ?_, fun t ht htL => ?_, 0, by simp, by simpa using hL⟩
  · exact hs.bound t (List.mem_append_right _ (hs.mem_accepted_of_mem_mTasks (hsub t ht)))
  · have h1 := hs.ids
    rw [List.map_append] at h1
    have h2 := List.disjoint_of_nodup_append h1
    exact h2 (List.mem_map_of_mem TaskUnit.chan ht)
      (List.mem_map_of_mem TaskUnit.chan (hs.mem_accepted_of_mem_mTasks (hsub t htL)))

/-! ## The container as the histories determine it -/

theorem Policy.arrange_push (p : Policy) (l : List TaskUnit) (t : TaskUnit) :
    p.arrange (l ++ [t]) = p.push (p.arrange l) t := by
  cases p <;> simp [Policy.arrange, Policy.push]

theorem Policy.arrange_filter (p : Policy) (l : List TaskUnit) (f : TaskUnit → Bool) :
    p.arrange (l.filter f) = (p.arrange l).filter f := by
  cases p <;> simp [Policy.arrange, List.filter_reverse]

/-- The container holds the accepted tasks not yet started, arranged by the policy. -/
theorem arranged_step {p : Policy} {s s' : Pool} {a : Action} (hl : Ledger s)
    (hs : s.mTasks = p.arrange s.waitingTasks)
    (h : step p s a = some s') : s'.mTasks = p.arrange s'.waitingTasks := by
  cases a with
  | enqueueCheck f =>
    simp only [step, Pool.enqueueCheck, Option.some.injEq] at h
    subst h
    split <;> exact hs
  | enqueuePush k =>
    obtain ⟨t, ht, hm, rfl⟩ := Pool.enqueuePush_some h
    have h1 := hl.ids
    rw [List.map_append] at h1
    have h2 := List.disjoint_of_nodup_append h1
    have hta : t ∉ s.accepted := fun hmem =>
      h2 (List.mem_map_of_mem TaskUnit.chan (List.getElem?_mem ht))
        (List.mem_map_of_mem TaskUnit.chan hmem)
    have hts : t ∉ s.started.map Prod.snd := fun hmem =>
      hta (hl.conserve.subset (List.mem_append_left _ hmem))
    have h3 : (s.accepted ++ [t]).filter (fun x => decide (x ∉ s.started.map Prod.snd))
        = s.waitingTasks ++ [t] := by
      simp only [Pool.waitingTasks, List.filter_append, List.filter_cons, List.filter_nil]
      simp [hts]
    show p.push s.mTasks t
      = p.arrange ((s.accepted ++ [t]).filter (fun x => decide (x ∉ s.started.map Prod.snd)))
    rw [h3, Policy.arrange_push, ← hs]
  | enqueueNotify w =>
    rcases Pool.enqueueNotify_some h with ⟨i, -, hw, rfl⟩ | ⟨-, rfl⟩ <;> exact hs
  | lock i =>
    obtain ⟨hw, hm, rfl⟩ := Pool.lock_some h
    exact hs
  | loopTest i =>
    obtain ⟨hw, ⟨hA, hq, rfl⟩ | ⟨hb, rfl⟩⟩ := Pool.loopTest_some h <;> exact hs
  | wait i =>
    obtain ⟨hw, rfl⟩ := Pool.wait_some h
    exact hs
  | wake i =>
    obtain ⟨hw, rfl⟩ := Pool.wake_some h
    exact hs
  | relock i =>
    obtain ⟨hw, hm, rfl⟩ := Pool.relock_some h
    exact hs
  | exitTest i =>
    obtain ⟨hw, ⟨hA, hq, rfl⟩ | ⟨hb, rfl⟩⟩ := Pool.exitTest_some h <;> exact hs
  | take i =>
    obtain ⟨hw, t, rest, hq, rfl⟩ := Pool.take_some h
    have hnd := hl.mTasks_nodup
    rw [hq] at hnd
    have htr : t ∉ rest := (List.nodup_cons.mp hnd).1
    have h3 : s.accepted.filter
          (fun x => decide (x ∉ (s.started ++ [(i, t)]).map Prod.snd))
        = s.waitingTasks.filter (fun x => decide (x ≠ t)) := by
      simp only [Pool.waitingTasks, List.filter_filter]
      refine List.filter_congr (fun x _ => ?_)
      simp only [List.map_append, List.map_cons, List.map_nil, List.mem_append,
        List.mem_singleton, not_or, Bool.decide_and, Bool.and_comm]
    show rest = p.arrange (s.accepted.filter
      (fun x => decide (x ∉ (s.started ++ [(i, t)]).map Prod.snd)))
    rw [h3, Policy.arrange_filter, ← hs, hq]
    simp only [List.filter_cons, ne_eq, not_true_eq_false, decide_False, Bool.false_eq_true,
      ↓reduceIte]
    symm
    rw [List.filter_eq_self]
    intro x hx
    simp only [decide_not, Bool.not_eq_true', decide_eq_false_iff_not]
    rintro rfl
    exact htr hx
  | finish i =>
    obtain ⟨t, hw, ⟨hc0, rfl⟩ | ⟨hc0, rfl⟩⟩ := Pool.finish_some h <;> exact hs
  | dtorStore =>
    obtain ⟨hd, rfl⟩ := Pool.dtorStore_some h
    exact hs
  | dtorNotifyAll =>
    obtain ⟨hd, rfl⟩ := Pool.dtorNotifyAll_some h
    exact hs
  | dtorJoin =>
    obtain ⟨hd, hall, rfl⟩ := Pool.dtorJoin_some h
    exact hs

theorem arranged_run {p : Policy} {s s' : Pool} {acts : List Action} (hl : Ledger s)
    (hs : s.mTasks = p.arrange s.waitingTasks)
    (h : run p s acts = some s') : s'.mTasks = p.arrange s'.waitingTasks :=
  (run_invariant (P := fun x => Ledger x ∧ x.mTasks = p.arrange x.waitingTasks)
    (fun _ _ _ h1 h2 => ⟨ledger_step h1.1 h2, arranged_step h1.1 h1.2 h2⟩) acts s s' ⟨hl, hs⟩ h).2

theorem arranged_init (p : Policy) (b : Bool) (n : Nat) :
    (Pool.new b n).mTasks = p.arrange (Pool.new b n).waitingTasks := by
  cases p <;> simp [Pool.new, Pool.waitingTasks, Policy.arrange]

/-- For a queue: the tasks started so far, then the container front to back, are the
accepted tasks in the order of their acceptance. -/
theorem fifo_step {s s' : Pool} {a : Action}
    (hs : s.started.map Prod.snd ++ s.mTasks = s.accepted)
    (h : step Policy.FIFO_POLICY s a = some s') :
    s'.started.map Prod.snd ++ s'.mTasks = s'.accepted := by
  cases a with
  | enqueueCheck f =>
    simp only [step, Pool.enqueueCheck, Option.some.injEq] at h
    subst h
    split <;> exact hs
  | enqueuePush k =>
    obtain ⟨t, ht, hm, rfl⟩ := Pool.enqueuePush_some h
    simp only [Policy.push, ← List.append_assoc, hs]
  | enqueueNotify w =>
    rcases Pool.enqueueNotify_some h with ⟨i, -, hw, rfl⟩ | ⟨-, rfl⟩ <;> exact hs
  | lock i =>
    obtain ⟨hw, hm, rfl⟩ := Pool.lock_some h
    exact hs
  | loopTest i =>
    obtain ⟨hw, ⟨hA, hq, rfl⟩ | ⟨hb, rfl⟩⟩ := Pool.loopTest_some h <;> exact hs
  | wait i =>
    obtain ⟨hw, rfl⟩ := Pool.wait_some h
    exact hs
  | wake i =>
    obtain ⟨hw, rfl⟩ := Pool.wake_some h
    exact hs
  | relock i =>
    obtain ⟨hw, hm, rfl⟩ := Pool.relock_some h
    exact hs
  | exitTest i =>
    obtain ⟨hw, ⟨hA, hq, rfl⟩ | ⟨hb, rfl⟩⟩ := Pool.exitTest_some h <;> exact hs
  | take i =>
    obtain ⟨hw, t, rest, hq, rfl⟩ := Pool.take_some h
    rw [hq] at hs
    simpa using hs
  | finish i =>
    obtain ⟨t, hw, ⟨hc0, rfl⟩ | ⟨hc0, rfl⟩⟩ := Pool.finish_some h <;> exact hs
  | dtorStore =>
    obtain ⟨hd, rfl⟩ := Pool.dtorStore_some h
    exact hs
  | dtorNotifyAll =>
    obtain ⟨hd, rfl⟩ := Pool.dtorNotifyAll_some h
    exact hs
  | dtorJoin =>
    obtain ⟨hd, hall, rfl⟩ := Pool.dtorJoin_some h
    exact hs

theorem fifo_run {s s' : Pool} {acts : List Action}
    (hs : s.started.map Prod.snd ++ s.mTasks = s.accepted)
    (h : run Policy.FIFO_POLICY s acts = some s') :
    s'.started.map Prod.snd ++ s'.mTasks = s'.accepted :=
  run_invariant (P := fun x => x.started.map Prod.snd ++ x.mTasks = x.accepted)
    (fun _ _ _ h1 h2 => fifo_step h1 h2) acts s s' hs h

/-- The histories only grow: an action appends to `started` and to `accepted`, or
leaves them. -/
theorem step_history {p : Policy} {s s' : Pool} {a : Action} (h : step p s a = some s') :
    (∃ new, s'.started = s.started ++ new) ∧ (∃ new, s'.accepted = s.accepted ++ new) := by
  cases a with
  | enqueueCheck f =>
    simp only [step, Pool.enqueueCheck, Option.some.injEq] at h
    subst h
    split <;> exact ⟨⟨[], by simp⟩, ⟨[], by simp⟩⟩
  | enqueuePush k =>
    obtain ⟨t, ht, hm, rfl⟩ := Pool.enqueuePush_some h
    exact ⟨⟨[], by simp⟩, ⟨[t], rfl⟩⟩
  | enqueueNotify w =>
    rcases Pool.enqueueNotify_some h with ⟨i, -, hw, rfl⟩ | ⟨-, rfl⟩ <;>
      exact ⟨⟨[], by simp⟩, ⟨[], by simp⟩⟩
  | lock i =>
    obtain ⟨hw, hm, rfl⟩ := Pool.lock_some h
    exact ⟨⟨[], by simp⟩, ⟨[], by simp⟩⟩
  | loopTest i =>
    obtain ⟨hw, ⟨hA, hq, rfl⟩ | ⟨hb, rfl⟩⟩ := Pool.loopTest_some h <;>
      exact ⟨⟨[], by simp⟩, ⟨[], by simp⟩⟩
  | wait i =>
    obtain ⟨hw, rfl⟩ := Pool.wait_some h
    exact ⟨⟨[], by simp⟩, ⟨[], by simp⟩⟩
  | wake i =>
    obtain ⟨hw, rfl⟩ := Pool.wake_some h
    exact ⟨⟨[], by simp⟩, ⟨[], by simp⟩⟩
  | relock i =>
    obtain ⟨hw, hm, rfl⟩ := Pool.relock_some h
    exact ⟨⟨[], by simp⟩, ⟨[], by simp⟩⟩
  | exitTest i =>
    obtain ⟨hw, ⟨hA, hq, rfl⟩ | ⟨hb, rfl⟩⟩ := Pool.exitTest_some h <;>
      exact ⟨⟨[], by simp⟩, ⟨[], by simp⟩⟩
  | take i =>
    obtain ⟨hw, t, rest, hq, rfl⟩ := Pool.take_some h
    exact ⟨⟨[(i, t)], rfl⟩, ⟨[], by simp⟩⟩
  | finish i =>
    obtain ⟨t, hw, ⟨hc0, rfl⟩ | ⟨hc0, rfl⟩⟩ := Pool.finish_some h <;>
      exact ⟨⟨[], by simp⟩, ⟨[], by simp⟩⟩
  | dtorStore =>
    obtain ⟨hd, rfl⟩ := Pool.dtorStore_some h
    exact ⟨⟨[], by simp⟩, ⟨[], by simp⟩⟩
  | dtorNotifyAll =>
    obtain ⟨hd, rfl⟩ := Pool.dtorNotifyAll_some h
    exact ⟨⟨[], by simp⟩, ⟨[], by simp⟩⟩
  | dtorJoin =>
    obtain ⟨hd, hall, rfl⟩ := Pool.dtorJoin_some h
    exact ⟨⟨[], by simp⟩, ⟨[], by simp⟩⟩

theorem run_history {p : Policy} {s s' : Pool} {acts : List Action}
    (h : run p s acts = some s') :
    (∃ new, s'.started = s.started ++ new) ∧ (∃ new, s'.accepted = s.accepted ++ new) := by
  refine run_invariant (p := p) (P := fun x => (∃ new, x.started = s.started ++ new) ∧
    (∃ new, x.accepted = s.accepted ++ new)) ?_ acts s s' ⟨⟨[], by simp⟩, ⟨[], by simp⟩⟩ h
  rintro x a x' ⟨⟨n1, h1⟩, ⟨n2, h2⟩⟩ hx
  obtain ⟨⟨m1, e1⟩, ⟨m2, e2⟩⟩ := step_history hx
  exact ⟨⟨n1 ++ m1, by rw [e1, h1, List.append_assoc]⟩,
    ⟨n2 ++ m2, by rw [e2, h2, List.append_assoc]⟩⟩

theorem filter_mem_of_sublist {L l : List TaskUnit} (h : L.Sublist l) (hnd : l.Nodup) :
    l.filter (fun x => decide (x ∈ L)) = L := by
  induction h with
  | slnil => rfl
  | @cons L l a h ih =>
    obtain ⟨ha, hnd'⟩ := List.nodup_cons.mp hnd
    have haL : a ∉ L := fun hmem => ha (h.subset hmem)
    simp only [List.filter_cons, haL, decide_False, Bool.false_eq_true, if_false]
    exact ih hnd'
  | @cons₂ L l a h ih =>
    obtain ⟨ha, hnd'⟩ := List.nodup_cons.mp hnd
    have e : l.filter (fun x => decide (x ∈ a :: L))
        = l.filter (fun x => decide (x ∈ L)) := by
      refine List.filter_congr (fun x hx => ?_)
      have hxa : x ≠ a := fun e => ha (e ▸ hx)
      simp [hxa]
    rw [List.filter_cons, if_pos (by simp), e, ih hnd']

/-- Tasks accepted in the order of `Ts`, none of them started, are in the container of
a pool of policy `p` in the order in which the policy lets them leave. -/
theorem filter_arranged {p : Policy} {s : Pool} {Ts : List TaskUnit} (hl : Ledger s)
    (harr : s.mTasks = p.arrange s.waitingTasks) (hTs : Ts.Sublist s.accepted)
    (hnone : ∀ t ∈ Ts, t ∉ s.started.map Prod.snd) :
    s.mTasks.filter (fun x => decide (x ∈ Ts)) = p.arrange Ts := by
  rw [harr, ← Policy.arrange_filter]
  congr 1
  rw [Pool.waitingTasks, List.filter_filter]
  rw [← filter_mem_of_sublist hTs hl.accepted_nodup]
  refine List.filter_congr (fun x hx => ?_)
  by_cases hxT : x ∈ Ts
  · simp [hxT, hnone x hxT, filter_mem_of_sublist hTs hl.accepted_nodup]
  · simp [hxT, filter_mem_of_sublist hTs hl.accepted_nodup]

theorem mem_mTasks_of_waiting {p : Policy} {s : Pool} {t : TaskUnit}
    (harr : s.mTasks = p.arrange s.waitingTasks) (ha : t ∈ s.accepted)
    (hn : t ∉ s.started.map Prod.snd) : t ∈ s.mTasks := by
  rw [harr]
  have : t ∈ s.waitingTasks := by
    simp only [Pool.waitingTasks, List.mem_filter, decide_eq_true_eq]
    exact ⟨ha, hn⟩
  cases p
  · exact this
  · exact List.mem_reverse.mpr this

/-! ## FIFO and LIFO order -/

/-- C1 (FIFO order).  A pool with a queue and one worker is run to a state `s`; the
tasks `T1, ..., Tn` were accepted by then in that order (they are in the history of
acceptance in that order) and the worker has removed none of them.  Then however the
run goes on, the starts made since `s` are a list `new`, and those of the `Ti` among
them are `T1, ..., Tk` in that order for some `k`, the others being still queued in
their order: the worker starts them in the order `T1, T2, ..., Tn`.  Moreover at every
point the tasks started so far followed by the queue, front first, are the accepted
tasks in the order of acceptance: each iteration takes the earliest-pushed task in
the queue. -/
theorem fifo_order (uninit : Bool) (pre post : List Action) (s s' : Pool)
    (Ts : List TaskUnit)
    (hpre : run Policy.FIFO_POLICY (Pool.new uninit 1) pre = some s)
    (hTs : Ts.Sublist s.accepted)
    (hnone : ∀ t ∈ Ts, t ∉ s.started.map Prod.snd)
    (hpost : run Policy.FIFO_POLICY s post = some s') :
    (∃ new k, s'.started = s.started ++ new ∧
        (new.map Prod.snd).filter (fun t => decide (t ∈ Ts)) = Ts.take k ∧
        s'.mTasks.filter (fun t => decide (t ∈ Ts)) = Ts.drop k) ∧
      s'.started.map Prod.snd ++ s'.mTasks = s'.accepted := by
  have hl : Ledger s := ledger_run (ledger_init uninit 1) hpre
  have harr := arranged_run (ledger_init uninit 1)
    (arranged_init Policy.FIFO_POLICY uninit 1) hpre
  have hstart : Leaving Ts s.started.length s :=
    leaving_start hl (fun t ht => mem_mTasks_of_waiting harr (hTs.subset ht) (hnone t ht))
      (filter_arranged hl harr hTs hnone)
  obtain ⟨-, -, -, k, h1, h2⟩ := leaving_run hstart hpost
  obtain ⟨⟨new, hnew⟩, -⟩ := run_history hpost
  refine ⟨⟨new, k, hnew, ?_, h2⟩, ?_⟩
  · rw [hnew, List.drop_left] at h1
    exact h1
  · have h0 : (Pool.new uninit 1).started.map Prod.snd ++ (Pool.new uninit 1).mTasks
        = (Pool.new uninit 1).accepted := by simp [Pool.new]
    exact fifo_run (fifo_run h0 hpre) hpost

/-- The run `threeCalls` and three iterations of the worker, at which `fifo_order` gives
the order of the starts: `t0`, `t1`, `t2`. -/
theorem fifo_order_witness :
    run Policy.FIFO_POLICY (Pool.new true 1) threeCalls = some fifoQueued ∧
    run Policy.FIFO_POLICY fifoQueued (iteration 0 ++ iteration 0 ++ iteration 0)
      = some fifoDone ∧
    ((∃ new k, fifoDone.started = fifoQueued.started ++ new ∧
        (new.map Prod.snd).filter (fun t => decide (t ∈ [t0, t1, t2])) = [t0, t1, t2].take k ∧
        fifoDone.mTasks.filter (fun t => decide (t ∈ [t0, t1, t2])) = [t0, t1, t2].drop k) ∧
      fifoDone.started.map Prod.snd ++ fifoDone.mTasks = fifoDone.accepted) ∧
    fifoDone.started.map Prod.snd = [t0, t1, t2] :=
  ⟨by decide, by decide,
    fifo_order true threeCalls (iteration 0 ++ iteration 0 ++ iteration 0) fifoQueued fifoDone
      [t0, t1, t2] (by decide) (List.Sublist.refl _) (by decide) (by decide), by decide⟩

/-- C2 (LIFO order).  A pool with a stack and one worker is run to a state `s`; the
tasks `T1, ..., Tn` were accepted by then in that order (they are in the history of
acceptance in that order) and the worker has removed none of them.  Then however the
run goes on, the starts made since `s` are a list `new`, and those of the `Ti` among
them are `Tn, ..., T(n-k+1)` in that order for some `k`, the others being still on the
stack in that order: the worker starts them in the order `Tn, ..., T2, T1`.  Moreover
at every point the stack, top first, holds the accepted tasks not yet started, latest
first: each iteration takes the most recently pushed task in the container. -/
theorem lifo_order (uninit : Bool) (pre post : List Action) (s s' : Pool)
    (Ts : List TaskUnit)
    (hpre : run Policy.LIFO_POLICY (Pool.new uninit 1) pre = some s)
    (hTs : Ts.Sublist s.accepted)
    (hnone : ∀ t ∈ Ts, t ∉ s.started.map Prod.snd)
    (hpost : run Policy.LIFO_POLICY s post = some s') :
    (∃ new k, s'.started = s.started ++ new ∧
        (new.map Prod.snd).filter (fun t => decide (t ∈ Ts)) = Ts.reverse.take k ∧
        s'.mTasks.filter (fun t => decide (t ∈ Ts)) = Ts.reverse.drop k) ∧
      s'.mTasks = s'.waitingTasks.reverse := by
  have hl : Ledger s := ledger_run (ledger_init uninit 1) hpre
  have harr := arranged_run (ledger_init uninit 1)
    (arranged_init Policy.LIFO_POLICY uninit 1) hpre
  have hL : s.mTasks.filter (fun x => decide (x ∈ Ts)) = Ts.reverse :=
    filter_arranged hl harr hTs hnone
  have hstart : Leaving Ts.reverse s.started.length s := by
    refine leaving_start hl (fun t ht => ?_) ?_
    · have ht' : t ∈ Ts := List.mem_reverse.mp ht
      exact mem_mTasks_of_waiting harr (hTs.subset ht') (hnone t ht')
    · simpa only [List.mem_reverse] using hL
  obtain ⟨-, -, -, k, h1, h2⟩ := leaving_run hstart hpost
  obtain ⟨⟨new, hnew⟩, -⟩ := run_history hpost
  simp only [List.mem_reverse] at h1 h2
  refine ⟨⟨new, k, hnew, ?_, h2⟩, ?_⟩
  · rw [hnew, List.drop_left] at h1
    exact h1
  · exact arranged_run hl harr hpost

/-- The run `threeCalls` and three iterations of the worker, at which `lifo_order` gives
the order of the starts: `t2`, `t1`, `t0`. -/
theorem lifo_order_witness :
    run Policy.LIFO_POLICY (Pool.new true 1) threeCalls = some lifoQueued ∧
    run Policy.LIFO_POLICY lifoQueued (iteration 0 ++ iteration 0 ++ iteration 0)
      = some lifoDone ∧
    ((∃ new k, lifoDone.started = lifoQueued.started ++ new ∧
        (new.map Prod.snd).filter (fun t => decide (t ∈ [t0, t1, t2]))
          = [t0, t1, t2].reverse.take k ∧
        lifoDone.mTasks.filter (fun t => decide (t ∈ [t0, t1, t2]))
          = [t0, t1, t2].reverse.drop k) ∧
      lifoDone.mTasks = lifoDone.waitingTasks.reverse) ∧
    lifoDone.started.map Prod.snd = [t2, t1, t0] :=
  ⟨by decide, by decide,
    lifo_order true threeCalls (iteration 0 ++ iteration 0 ++ iteration 0) lifoQueued lifoDone
      [t0, t1, t2] (by decide) (List.Sublist.refl _) (by decide) (by decide), by decide⟩

/-! ## Submission -/

theorem Policy.length_push (p : Policy) (q : List TaskUnit) (t : TaskUnit) :
    (p.push q t).length = q.length + 1 := by
  cases p <;> simp [Policy.push]

/-- C3 (post-shutdown rejection is atomic).  In a state whose flag is clear, a call of
`enqueue` with any callable throws the error "enqueue on stopped ThreadPool" and
leaves the state as it was, every field of it: container, channels, calls in flight,
pending notifications, workers.  In a state whose flag is set, a call that completes
returns a future, having pushed exactly the new task, so the container has one task
more; and the call completes whenever the mutex is free. -/
theorem enqueue_rejects_atomically (p : Policy) (s : Pool) (f : Outcome) :
    (s.isActive = false →
      (∀ w, enqueue p s f w = some (Except.error "enqueue on stopped ThreadPool", s)) ∧
      step p s (Action.enqueueCheck f) = some s) ∧
    (s.isActive = true →
      (∀ w r, enqueue p s f w = some r →
        r.1 = Except.ok s.channels.length ∧
        r.2.mTasks = p.push s.mTasks { chan := s.channels.length, body := f } ∧
        r.2.mTasks.length = s.mTasks.length + 1) ∧
      (s.queue_mutex = none → ∃ w r, enqueue p s f w = some r)) := by
  constructor
  · intro hA
    refine ⟨fun w => ?_, ?_⟩
    · simp [enqueue, Pool.enqueueCheck_stopped f hA]
    · simp [step, Pool.enqueueCheck_stopped f hA]
  · intro hA
    have hidx : (s.inflight ++ [TaskUnit.mk s.channels.length f])[s.inflight.length]?
        = some (TaskUnit.mk s.channels.length f) := by simp
    constructor
    · intro w r hr
      simp only [enqueue, Pool.enqueueCheck_active f hA, List.length_append,
        List.length_singleton, Nat.add_sub_cancel, Option.bind_eq_some, Option.map_eq_some']
        at hr
      obtain ⟨s2, h2, s3, h3, rfl⟩ := hr
      obtain ⟨t, ht, hm, rfl⟩ := Pool.enqueuePush_some h2
      simp only [hidx, Option.some.injEq] at ht
      subst ht
      rcases Pool.enqueueNotify_some h3 with ⟨i, -, hw, rfl⟩ | ⟨-, rfl⟩ <;>
        exact ⟨rfl, rfl, p.length_push _ _⟩
    · intro hm
      by_cases hwait : Worker.waiting ∈ s.mWorkers
      · obtain ⟨i, hi⟩ := List.mem_iff_getElem?.mp hwait
        refine ⟨some i, ?_⟩
        simp [enqueue, Pool.enqueueCheck_active f hA, Pool.enqueuePush, hidx, hm,
          Pool.enqueueNotify, hi]
      · refine ⟨none, ?_⟩
        simp [enqueue, Pool.enqueueCheck_active f hA, Pool.enqueuePush, hidx, hm,
          Pool.enqueueNotify, hwait]

/-- A call on `stoppedPool` is rejected and leaves it as it was; a call on `activePool`
completes. -/
theorem enqueue_rejects_atomically_witness :
    (enqueue Policy.LIFO_POLICY stoppedPool (Outcome.value 7) (some 0)
        = some (Except.error "enqueue on stopped ThreadPool", stoppedPool)) ∧
    (∃ w r, enqueue Policy.LIFO_POLICY activePool (Outcome.value 7) w = some r) :=
  ⟨((enqueue_rejects_atomically Policy.LIFO_POLICY stoppedPool (Outcome.value 7)).1
      (by decide)).1 (some 0),
   ((enqueue_rejects_atomically Policy.LIFO_POLICY activePool (Outcome.value 7)).2
      (by decide)).2 (by decide)⟩

/-! ## Exactly-once execution -/

/-- C5 (exactly-once execution).  In every state a pool of any policy and any number
of workers reaches by any interleaving of the calls of `enqueue`, the workers and the
destructor: the accepted tasks are pairwise distinct; each of them is either in the
container, once, or has been removed and started, once, and never both; nothing else
is in the container or was started; a task was removed by one worker only; no task has
completed twice, and one that completed had been removed; and every task removed has
completed or is being run by the worker that removed it, so none is dropped. -/
theorem exactly_once (p : Policy) (uninit : Bool) (numThreads : Nat) (acts : List Action)
    (s : Pool) (h : run p (Pool.new uninit numThreads) acts = some s) :
    s.accepted.Nodup ∧
    (∀ t ∈ s.accepted, s.mTasks.count t + (s.started.map Prod.snd).count t = 1) ∧
    (∀ t, t ∉ s.accepted → t ∉ s.mTasks ∧ t ∉ s.started.map Prod.snd) ∧
    (∀ i j t, (i, t) ∈ s.started → (j, t) ∈ s.started → i = j) ∧
    (∀ t, s.finished.count t ≤ 1) ∧
    (∀ t ∈ s.finished, t ∈ s.started.map Prod.snd) ∧
    (∀ i t, (i, t) ∈ s.started →
      t ∈ s.finished ∨ s.mWorkers[i]? = some (Worker.running t)) := by
  have hl : Ledger s := ledger_run (ledger_init uninit numThreads) h
  refine ⟨hl.accepted_nodup, fun t ht => ?_, fun t ht => ⟨fun hm => ?_, fun hm => ?_⟩,
    fun i j t hi hj => fst_unique_of_nodup_snd hl.started_nodup hi hj,
    fun t => List.nodup_iff_count_le_one.mp hl.once t, hl.finished, hl.started⟩
  · have h1 := hl.conserve.count_eq t
    rw [List.count_append, List.count_eq_one_of_mem hl.accepted_nodup ht] at h1
    omega
  · exact ht (hl.mem_accepted_of_mem_mTasks hm)
  · exact ht (hl.conserve.subset (List.mem_append_left _ hm))

/-- The state `lifoDone`, reached by `threeCalls` and three iterations of the worker. -/
theorem exactly_once_witness :
    lifoDone.accepted.Nodup ∧
    (∀ t ∈ lifoDone.accepted,
      lifoDone.mTasks.count t + (lifoDone.started.map Prod.snd).count t = 1) ∧
    (∀ t, t ∉ lifoDone.accepted → t ∉ lifoDone.mTasks ∧ t ∉ lifoDone.started.map Prod.snd) ∧
    (∀ i j t, (i, t) ∈ lifoDone.started → (j, t) ∈ lifoDone.started → i = j) ∧
    (∀ t, lifoDone.finished.count t ≤ 1) ∧
    (∀ t ∈ lifoDone.finished, t ∈ lifoDone.started.map Prod.snd) ∧
    (∀ i t, (i, t) ∈ lifoDone.started →
      t ∈ lifoDone.finished ∨ lifoDone.mWorkers[i]? = some (Worker.running t)) :=
  exactly_once Policy.LIFO_POLICY true 1
    (threeCalls ++ (iteration 0 ++ iteration 0 ++ iteration 0)) lifoDone (by decide)

/-! ## Result delivery -/

/-- No action drops a task that a call of `enqueue` has made: it stays in flight or
accepted. -/
theorem step_keeps_task {p : Policy} {s s' : Pool} {a : Action} {t : TaskUnit}
    (ht : t ∈ s.inflight ++ s.accepted) (h : step p s a = some s') :
    t ∈ s'.inflight ++ s'.accepted := by
  cases a with
  | enqueueCheck f =>
    simp only [step, Option.some.injEq] at h
    subst h
    rcases Bool.eq_false_or_eq_true s.isActive with hA | hA
    · rw [Pool.enqueueCheck_active f hA]
      simp only [List.mem_append] at ht ⊢
      rcases ht with h1 | h1
      · exact Or.inl (Or.inl h1)
      · exact Or.inr h1
    · rw [Pool.enqueueCheck_stopped f hA]
      exact ht
  | enqueuePush k =>
    obtain ⟨u, hu, hm, rfl⟩ := Pool.enqueuePush_some h
    simp only [List.mem_append, List.mem_singleton] at ht ⊢
    rcases ht with h1 | h1
    · have := (perm_cons_eraseIdx hu).subset h1
      simp only [List.mem_cons] at this
      rcases this with rfl | h2
      · exact Or.inr (Or.inr rfl)
      · exact Or.inl h2
    · exact Or.inr (Or.inl h1)
  | enqueueNotify w =>
    rcases Pool.enqueueNotify_some h with ⟨i, -, hw, rfl⟩ | ⟨-, rfl⟩ <;> exact ht
  | lock i =>
    obtain ⟨hw, hm, rfl⟩ := Pool.lock_some h
    exact ht
  | loopTest i =>
    obtain ⟨hw, ⟨hA, hq, rfl⟩ | ⟨hb, rfl⟩⟩ := Pool.loopTest_some h <;> exact ht
  | wait i =>
    obtain ⟨hw, rfl⟩ := Pool.wait_some h
    exact ht
  | wake i =>
    obtain ⟨hw, rfl⟩ := Pool.wake_some h
    exact ht
  | relock i =>
    obtain ⟨hw, hm, rfl⟩ := Pool.relock_some h
    exact ht
  | exitTest i =>
    obtain ⟨hw, ⟨hA, hq, rfl⟩ | ⟨hb, rfl⟩⟩ := Pool.exitTest_some h <;> exact ht
  | take i =>
    obtain ⟨hw, u, rest, hq, rfl⟩ := Pool.take_some h
    exact ht
  | finish i =>
    obtain ⟨u, hw, ⟨hc0, rfl⟩ | ⟨hc0, rfl⟩⟩ := Pool.finish_some h <;> exact ht
  | dtorStore =>
    obtain ⟨hd, rfl⟩ := Pool.dtorStore_some h
    exact ht
  | dtorNotifyAll =>
    obtain ⟨hd, rfl⟩ := Pool.dtorNotifyAll_some h
    exact ht
  | dtorJoin =>
    obtain ⟨hd, hall, rfl⟩ := Pool.dtorJoin_some h
    exact ht

theorem run_keeps_task {p : Policy} {s s' : Pool} {acts : List Action} {t : TaskUnit}
    (ht : t ∈ s.inflight ++ s.accepted) (h : run p s acts = some s') :
    t ∈ s'.inflight ++ s'.accepted :=
  run_invariant (P := fun x => t ∈ x.inflight ++ x.accepted)
    (fun _ _ _ h1 h2 => step_keeps_task h1 h2) acts s s' ht h

/-- C6 (result delivery).  In a reachable state `s` a call of `enqueue` with the
callable `f` passes the test and returns the future `fut` (so does the whole call,
when it completes), and the run goes on in any way to a state `s'`.  Then the task
unit of that submission, the one that wraps `f` and owns the shared state of `fut`,
is in flight or accepted, and no other task has that shared state; `get` on `fut`
yields the outcome of `f`, its value when `f` returned and its failure when `f`
threw, once a worker has executed that task unit, and is not ready before; no worker
has lost its thread to an exception; and a worker inside the call of a task can finish
it, after which the outcome is in the shared state of that task and the worker is back
at the top of its loop, whatever the outcome is. -/
theorem result_delivery (p : Policy) (uninit : Bool) (numThreads : Nat)
    (pre post : List Action) (s s' : Pool) (f : Outcome) (fut : Nat)
    (hpre : run p (Pool.new uninit numThreads) pre = some s)
    (hfut : (s.enqueueCheck f).1 = Except.ok fut)
    (hpost : run p (s.enqueueCheck f).2 post = some s') :
    (∀ w r, enqueue p s f w = some r → r.1 = Except.ok fut) ∧
    TaskUnit.mk fut f ∈ s'.inflight ++ s'.accepted ∧
    (∀ t ∈ s'.inflight ++ s'.accepted, t.chan = fut → t = TaskUnit.mk fut f) ∧
    (TaskUnit.mk fut f ∈ s'.finished → get s' fut = some f) ∧
    (TaskUnit.mk fut f ∉ s'.finished → get s' fut = none) ∧
    (∀ i : Nat, s'.mWorkers[i]? ≠ some Worker.crashed) ∧
    (∀ (i : Nat) (t : TaskUnit), s'.mWorkers[i]? = some (Worker.running t) →
      ∃ s'', step p s' (Action.finish i) = some s'' ∧ s''.mWorkers[i]? = some Worker.idle ∧
        get s'' t.chan = some t.body ∧ s''.finished = s'.finished ++ [t]) := by
  have hA : s.isActive = true := by
    rcases Bool.eq_false_or_eq_true s.isActive with hA | hA
    · exact hA
    · rw [Pool.enqueueCheck_stopped f hA] at hfut
      simp at hfut
  rw [Pool.enqueueCheck_active f hA] at hfut hpost
  simp only [Except.ok.injEq] at hfut
  subst hfut
  have hl0 : Ledger s := ledger_run (ledger_init uninit numThreads) hpre
  have hl1 := ledger_enqueueCheck hl0 f
  rw [Pool.enqueueCheck_active f hA] at hl1
  have hl : Ledger s' := ledger_run hl1 hpost
  have hmem : TaskUnit.mk s.channels.length f ∈ s'.inflight ++ s'.accepted :=
    run_keeps_task (by simp) hpost
  refine ⟨fun w r hr => ?_, hmem, fun t ht hc => ?_, fun hfin => ?_, fun hnf => ?_,
    hl.sound, fun i t hw => ?_⟩
  · simp only [enqueue, Pool.enqueueCheck_active f hA, Option.bind_eq_some,
      Option.map_eq_some'] at hr
    obtain ⟨s2, -, s3, -, rfl⟩ := hr
    rfl
  · exact List.inj_on_of_nodup_map hl.ids ht hmem hc
  · simp [get, hl.ready _ hfin]
  · simp [get, hl.unready _ hmem hnf]
  · obtain ⟨hst, hnf⟩ := hl.running i t hw
    have hacc : t ∈ s'.accepted := hl.mem_accepted_of_started hst
    have hch : s'.channels[t.chan]? = some none :=
      hl.unready t (List.mem_append_right _ hacc) hnf
    have hlt : t.chan < s'.channels.length := hl.bound t (List.mem_append_right _ hacc)
    have hi : i < s'.mWorkers.length := (List.getElem?_eq_some_iff.mp hw).1
    refine ⟨{ s' with channels := s'.channels.set t.chan (some t.body)
                      mWorkers := s'.mWorkers.set i Worker.idle
                      finished := s'.finished ++ [t] }, ?_, ?_, ?_, rfl⟩
    · simp only [step, Pool.finish, hw, hch, invoke]
    · simp [List.getElem?_set_self hi]
    · simp [get, List.getElem?_set_self hlt]

/-- The third call of `threeCalls`, whose callable throws, returns the future 2; once
the worker has run its task, `get` on that future yields the failure. -/
theorem result_delivery_witness :
    run Policy.LIFO_POLICY (Pool.new true 1) (threeCalls.take 6) = some twoQueued ∧
    (twoQueued.enqueueCheck (Outcome.failure "boom")).1 = Except.ok 2 ∧
    run Policy.LIFO_POLICY (twoQueued.enqueueCheck (Outcome.failure "boom")).2 thirdCallRuns
      = some thirdDelivered ∧
    t2 ∈ thirdDelivered.finished ∧
    get thirdDelivered 2 = some (Outcome.failure "boom") :=
  ⟨by decide, rfl, by decide, by decide,
    (result_delivery Policy.LIFO_POLICY true 1 (threeCalls.take 6) thirdCallRuns twoQueued
      thirdDelivered (Outcome.failure "boom") 2 (by decide) rfl (by decide)).2.2.2.1
      (by decide)⟩

/-! ## Dequeue safety -/

/-- C10 (dequeue safety).  In every state a pool of either policy reaches by any
interleaving (the destructor may clear the flag at any point, also between the two
tests of an iteration), a worker about to run `front()` / `top()` and `pop()` holds the
mutex and finds the container non-empty, so the removal is defined. -/
theorem dequeue_safety (p : Policy) (uninit : Bool) (numThreads : Nat) (acts : List Action)
    (s : Pool) (i : Nat) (h : run p (Pool.new uninit numThreads) acts = some s)
    (hi : s.mWorkers[i]? = some Worker.popping) :
    s.mTasks ≠ [] ∧ s.queue_mutex = some i ∧ ∃ s', step p s (Action.take i) = some s' := by
  have hl : LockInv s := lockInv_run (lockInv_init uninit numThreads) h
  have hne := hl.popping i hi
  refine ⟨hne, (hl.owner i _ hi).mp rfl, ?_⟩
  obtain ⟨t, rest, hq⟩ := List.exists_cons_of_ne_nil hne
  refine ⟨{ s with mTasks := rest
                   queue_mutex := none
                   mWorkers := s.mWorkers.set i (Worker.running t)
                   started := s.started ++ [(i, t)] }, ?_⟩
  simp only [step, Pool.take, hi, hq, if_true]

/-- The run in which line 106 falls between the two tests of the worker. -/
theorem dequeue_safety_witness :
    run Policy.FIFO_POLICY (Pool.new true 1)
      [Action.enqueueCheck (Outcome.value 10), Action.enqueuePush 0, Action.lock 0,
       Action.loopTest 0, Action.dtorStore, Action.exitTest 0] = some racedPool ∧
    racedPool.mTasks ≠ [] ∧ racedPool.queue_mutex = some 0 ∧
    ∃ s', step Policy.FIFO_POLICY racedPool (Action.take 0) = some s' :=
  ⟨by decide, dequeue_safety Policy.FIFO_POLICY true 1
    [Action.enqueueCheck (Outcome.value 10), Action.enqueuePush 0, Action.lock 0,
     Action.loopTest 0, Action.dtorStore, Action.exitTest 0] racedPool 0 (by decide) (by decide)⟩

/-! ## Graceful drain -/

/-- A step makes a worker return only from a state whose flag is clear and whose
container is empty. -/
theorem step_terminates {p : Policy} {x x' : Pool} {a : Action} {i : Nat}
    (h : step p x a = some x') (hnt : x.mWorkers[i]? ≠ some Worker.terminated)
    (ht : x'.mWorkers[i]? = some Worker.terminated) :
    x.isActive = false ∧ x.mTasks = [] ∧ x'.mTasks = [] := by
  cases a with
  | enqueueCheck f =>
    simp only [step, Pool.enqueueCheck, Option.some.injEq] at h
    subst h
    split at ht <;> exact absurd ht hnt
  | enqueuePush k =>
    obtain ⟨t, -, -, rfl⟩ := Pool.enqueuePush_some h
    exact absurd ht hnt
  | enqueueNotify w =>
    rcases Pool.enqueueNotify_some h with ⟨j, -, hw, rfl⟩ | ⟨-, rfl⟩
    · exact absurd (terminated_set _ hw (by simp) i ht) hnt
    · exact absurd ht hnt
  | lock j =>
    obtain ⟨hw, -, rfl⟩ := Pool.lock_some h
    exact absurd (terminated_set _ hw (by simp) i ht) hnt
  | loopTest j =>
    obtain ⟨hw, ⟨-, -, rfl⟩ | ⟨-, rfl⟩⟩ := Pool.loopTest_some h <;>
      exact absurd (terminated_set _ hw (by simp) i ht) hnt
  | wait j =>
    obtain ⟨hw, rfl⟩ := Pool.wait_some h
    exact absurd (terminated_set _ hw (by simp) i ht) hnt
  | wake j =>
    obtain ⟨hw, rfl⟩ := Pool.wake_some h
    exact absurd (terminated_set _ hw (by simp) i ht) hnt
  | relock j =>
    obtain ⟨hw, -, rfl⟩ := Pool.relock_some h
    exact absurd (terminated_set _ hw (by simp) i ht) hnt
  | exitTest j =>
    obtain ⟨hw, ⟨hA, hq, rfl⟩ | ⟨-, rfl⟩⟩ := Pool.exitTest_some h
    · exact ⟨hA, hq, hq⟩
    · exact absurd (terminated_set _ hw (by simp) i ht) hnt
  | take j =>
    obtain ⟨hw, t, rest, -, rfl⟩ := Pool.take_some h
    exact absurd (terminated_set _ hw (by simp) i ht) hnt
  | finish j =>
    obtain ⟨t, hw, ⟨-, rfl⟩ | ⟨-, rfl⟩⟩ := Pool.finish_some h <;>
      exact absurd (terminated_set _ hw (by simp) i ht) hnt
  | dtorStore =>
    obtain ⟨-, rfl⟩ := Pool.dtorStore_some h
    exact absurd ht hnt
  | dtorNotifyAll =>
    obtain ⟨-, rfl⟩ := Pool.dtorNotifyAll_some h
    simp only [List.getElem?_map, Option.map_eq_some'] at ht
    obtain ⟨w0, hw0, hf⟩ := ht
    split_ifs at hf with hww
    subst hf
    exact absurd hw0 hnt
  | dtorJoin =>
    obtain ⟨-, -, rfl⟩ := Pool.dtorJoin_some h
    exact absurd ht hnt

/-- C4 (graceful drain).  A step makes a worker return only in a state whose flag is
clear and whose container is empty.  And let a pool of at least one worker reach a
state `s` in which the destructor has not begun, let the destructor begin there, and
let the run go on in any way to a state `s'` in which every worker has returned (what
the join loop waits for) and the accepted tasks are those of `s` (they were accepted
and then the destructor began; `quiet_shutdown_accepts_nothing`): then the container
is empty, the tasks whose call has returned are the accepted ones, and the future of
each is ready with its outcome. -/
theorem graceful_drain (p : Policy) (uninit : Bool) (numThreads : Nat)
    (pre post : List Action) (s s' : Pool)
    (hpre : run p (Pool.new uninit numThreads) pre = some s)
    (halive : s.dtor = Dtor.alive)
    (hpost : run p s (Action.dtorStore :: post) = some s')
    (hsame : s'.accepted = s.accepted)
    (hn : 0 < numThreads) (hall : ∀ w ∈ s'.mWorkers, w = Worker.terminated) :
    (∀ (x x' : Pool) (a : Action) (i : Nat), step p x a = some x' →
      x.mWorkers[i]? ≠ some Worker.terminated → x'.mWorkers[i]? = some Worker.terminated →
      x.isActive = false ∧ x.mTasks = [] ∧ x'.mTasks = []) ∧
    s'.mTasks = [] ∧ s'.finished.Perm s.accepted ∧
    (∀ t ∈ s.accepted, get s' t.chan = some t.body) := by
  have hl : Ledger s := ledger_run (ledger_init uninit numThreads) hpre
  have hlife : LifeInv s := lifeInv_run (lifeInv_init uninit numThreads) hpre
  have hl' : Ledger s' := ledger_run hl hpost
  simp only [run, Option.bind_eq_some] at hpost
  obtain ⟨s1, hs1, hpost1⟩ := hpost
  obtain ⟨-, rfl⟩ := Pool.dtorStore_some hs1
  have hd : Draining s.accepted
      { s with isActive := false, dtor := Dtor.stored } := by
    refine ⟨rfl, ⟨[], by simp⟩, fun _ ⟨j, hj⟩ => ?_⟩
    have hst := hlife.term j hj
    have hacc := (hlife.fresh halive hst).2
    have hperm := hl.conserve
    rw [hacc] at hperm
    have := hperm.length_eq
    simp only [List.length_append, List.length_map, List.length_nil] at this
    show s.mTasks = []
    exact List.eq_nil_of_length_eq_zero (by omega)
  have hd' := draining_run hd hpost1
  have hlen : s'.mWorkers.length = numThreads := by
    rw [run_length hpost1]
    show s.mWorkers.length = numThreads
    rw [run_length hpre]
    simp [Pool.new]
  have h0 : s'.mWorkers[0]? = some Worker.terminated := by
    have hlt : 0 < s'.mWorkers.length := by omega
    rw [List.getElem?_eq_getElem hlt]
    exact congrArg some (hall _ (List.getElem_mem _))
  have hempty : s'.mTasks = [] := hd'.empty hsame ⟨0, h0⟩
  have hperm : (s'.started.map Prod.snd).Perm s.accepted := by
    have := hl'.conserve
    rw [hempty, List.append_nil, hsame] at this
    exact this
  have hfin : s'.finished.Perm (s'.started.map Prod.snd) := by
    refine (List.perm_ext_iff_of_nodup hl'.once hl'.started_nodup).mpr (fun t => ?_)
    constructor
    · exact hl'.finished t
    · intro ht
      obtain ⟨⟨i, t'⟩, hmem, rfl⟩ := List.mem_map.mp ht
      rcases hl'.started i t' hmem with h1 | h1
      · exact h1
      · have := hall _ (List.getElem?_mem h1)
        simp at this
  refine ⟨?_, hempty, hfin.trans hperm, fun t ht => ?_⟩
  · intro x x' a i hx hnt ht
    exact step_terminates hx hnt ht
  · have : t ∈ s'.finished := (hfin.trans hperm).mem_iff.mpr ht
    simp [get, hl'.ready t this]

/-- Three tasks are accepted, then the destructor runs to its end. -/
theorem graceful_drain_witness :
    run Policy.LIFO_POLICY (Pool.new true 1) threeCalls = some lifoQueued ∧
    run Policy.LIFO_POLICY lifoQueued (Action.dtorStore :: shutdown) = some lifoJoined ∧
    ((∀ (x x' : Pool) (a : Action) (i : Nat), step Policy.LIFO_POLICY x a = some x' →
      x.mWorkers[i]? ≠ some Worker.terminated → x'.mWorkers[i]? = some Worker.terminated →
      x.isActive = false ∧ x.mTasks = [] ∧ x'.mTasks = []) ∧
    lifoJoined.mTasks = [] ∧ lifoJoined.finished.Perm lifoQueued.accepted ∧
    (∀ t ∈ lifoQueued.accepted, get lifoJoined t.chan = some t.body)) :=
  ⟨by decide, by decide,
    graceful_drain Policy.LIFO_POLICY true 1 threeCalls shutdown lifoQueued lifoJoined
      (by decide) (by decide) (by decide) (by decide) (by decide) (by decide)⟩

/-! ## A lost wakeup -/

/-- Line 106 stores the flag without the mutex, so the store and `notify_all` can fall
between the test of line 66 and the `wait` of line 67.  The worker then blocks with
the flag clear, and in that state nothing but a spurious wakeup moves the pool: the
join loop of the destructor does not end. -/
theorem lost_wakeup :
    run Policy.FIFO_POLICY (Pool.new true 1)
      [Action.lock 0, Action.loopTest 0, Action.dtorStore, Action.dtorNotifyAll,
       Action.wait 0] = some stuckPool ∧
    ∀ (p : Policy) (a : Action) (s' : Pool), step p stuckPool a = some s' →
      s' = stuckPool ∨ a = Action.wake 0 := by
  refine ⟨by decide, fun p a s' h => ?_⟩
  cases a with
  | enqueueCheck f =>
    simp only [step, Pool.enqueueCheck, Option.some.injEq] at h
    exact Or.inl h.symm
  | enqueuePush k => simp [step, Pool.enqueuePush, stuckPool] at h
  | enqueueNotify w => simp [step, Pool.enqueueNotify, stuckPool] at h
  | lock i => rcases i with _ | i <;> simp [step, Pool.lock, stuckPool] at h
  | loopTest i => rcases i with _ | i <;> simp [step, Pool.loopTest, stuckPool] at h
  | wait i => rcases i with _ | i <;> simp [step, Pool.wait, stuckPool] at h
  | wake i =>
    rcases i with _ | i
    · exact Or.inr rfl
    · simp [step, Pool.wake, stuckPool] at h
  | relock i => rcases i with _ | i <;> simp [step, Pool.relock, stuckPool] at h
  | exitTest i => rcases i with _ | i <;> simp [step, Pool.exitTest, stuckPool] at h
  | take i => rcases i with _ | i <;> simp [step, Pool.take, stuckPool] at h
  | finish i => rcases i with _ | i <;> simp [step, Pool.finish, stuckPool] at h
  | dtorStore => simp [step, Pool.dtorStore, stuckPool] at h
  | dtorNotifyAll => simp [step, Pool.dtorNotifyAll, stuckPool] at h
  | dtorJoin => simp [step, Pool.dtorJoin, stuckPool] at h

/-! ## A call of `enqueue` racing with the destructor -/

/-- The test of line 84 is made without the mutex, so a call of `enqueue` that races
with the destructor can pass it and push its task after every worker has returned: the
task stays in the container. -/
theorem enqueue_races_shutdown :
    run Policy.FIFO_POLICY (Pool.new true 1)
      [Action.enqueueCheck (Outcome.value 10), Action.dtorStore, Action.dtorNotifyAll,
       Action.lock 0, Action.loopTest 0, Action.exitTest 0, Action.enqueuePush 0]
      = some latePool ∧
    (∀ w ∈ latePool.mWorkers, w = Worker.terminated) ∧ latePool.mTasks = [t0] := by
  decide

/-! ## The pending count -/

theorem floodTasks_succ (m : Nat) :
    floodTasks (m + 1) = floodTasks m ++ [{ chan := m, body := Outcome.value 0 }] := by
  simp [floodTasks, List.range_succ]

theorem run_flood (m : Nat) :
    run Policy.FIFO_POLICY (Pool.new true 0) (flood m) = some (flooded m) := by
  induction m with
  | zero => rfl
  | succ m ih =>
    rw [flood, run_append, ih]
    simp only [Option.some_bind, run, step, Pool.enqueueCheck, flooded, if_true,
      List.length_replicate, List.nil_append, Pool.enqueuePush, List.getElem?_cons_zero,
      Policy.push, Pool.enqueueNotify, List.eraseIdx_cons_zero, Nat.zero_add,
      Nat.lt_one_iff, List.not_mem_nil, if_false, Nat.sub_self, floodTasks_succ,
      Option.some.injEq, Pool.mk.injEq, true_and, and_true, Nat.add_sub_cancel]
    simp [List.replicate_succ']

/-- The number of tasks in the container is the number accepted less the number
removed, in every reachable state. -/
theorem size_ledger (p : Policy) (uninit : Bool) (numThreads : Nat) (acts : List Action)
    (s : Pool) (h : run p (Pool.new uninit numThreads) acts = some s) :
    s.mTasks.length + s.started.length = s.accepted.length := by
  have hl : Ledger s := ledger_run (ledger_init uninit numThreads) h
  have := hl.conserve.length_eq
  simp only [List.length_append, List.length_map] at this
  omega

/-- The member `pending` leaves the state as it is, and returns the size of the
container as long as the size is below `2 ^ 31`. -/
theorem pending_small (s : Pool) (hm : s.queue_mutex = none) (hlt : s.mTasks.length < 2 ^ 31) :
    pending s = some ((s.mTasks.length : Int), s) := by
  have h1 : s.mTasks.length % 2 ^ 32 = s.mTasks.length := Nat.mod_eq_of_lt (by omega)
  simp only [pending, hm, if_true, toInt, h1]
  rw [if_pos hlt]

theorem flooded_length (m : Nat) : (flooded m).mTasks.length = m := by
  simp [flooded, floodTasks]

theorem pending_flooded (m : Nat) : pending (flooded m) = some (toInt m, flooded m) := by
  have hm : (flooded m).queue_mutex = none := rfl
  simp only [pending, hm, if_true, flooded_length]

theorem toInt_overflow : toInt (2 ^ 31) = -2147483648 := by
  simp only [toInt]
  norm_num

/-- C7, the failing input: a pool without workers on which `enqueue` was called
`2 ^ 31` times holds `2 ^ 31` tasks, and `pending` returns `-2147483648`. -/
theorem pending_overflow :
    run Policy.FIFO_POLICY (Pool.new true 0) (flood (2 ^ 31)) = some (flooded (2 ^ 31)) ∧
    (flooded (2 ^ 31)).mTasks.length = 2 ^ 31 ∧
    pending (flooded (2 ^ 31)) = some (-2147483648, flooded (2 ^ 31)) :=
  ⟨run_flood _, flooded_length _, (pending_flooded _).trans (by rw [toInt_overflow])⟩

/-! ## The flag after construction -/

/-- The flag, from construction on: the constructor leaves it as the storage held it;
line 106 clears it; and no action sets it, so a clear flag stays clear. -/
theorem flag_lifecycle :
    (∀ (b : Bool) (n : Nat), (Pool.new b n).isActive = b) ∧
    (∀ s s' : Pool, s.dtorStore = some s' → s'.isActive = false) ∧
    (∀ (p : Policy) (s s' : Pool) (a : Action), step p s a = some s' →
      s.isActive = false → s'.isActive = false) :=
  ⟨fun _ _ => rfl, fun _ _ h => by obtain ⟨-, rfl⟩ := Pool.dtorStore_some h; rfl,
    fun _ _ _ _ h hs => step_stopped h hs⟩

/-- C8, the failing input: a pool built where the storage of `isActive` holds `false`
has a clear flag after the constructor, so `enqueue` throws and the worker, run,
returns at once. -/
theorem constructor_leaves_flag :
    (Pool.new false 1).isActive = false ∧
    enqueue Policy.FIFO_POLICY (Pool.new false 1) (Outcome.value 1) none
      = some (Except.error "enqueue on stopped ThreadPool", Pool.new false 1) ∧
    (run Policy.FIFO_POLICY (Pool.new false 1) (lastIteration 0)).map Pool.mWorkers
      = some [Worker.terminated] :=
  ⟨rfl, rfl, by decide⟩

end ThreadPool
